import Mathlib

/-!
Shallow embedding of the SlangTerm backend search core
(src/backend/embeddings.py and src/backend/routers/search.py).

Modelling conventions:
* machine floats are modelled as rationals (no claim depends on rounding);
* timestamps are integers; the trailing-window cutoff date is passed in
  directly (the Python code computes it as now - timedelta(days));
* Python lists / SQL result sets are Lean lists; SQL GROUP BY rows are
  modelled in first-occurrence / store order, and the relational store is a
  list of records whose order stands for the store's natural (primary-key)
  ordering;
* Python dicts are association lists in insertion order (dictAdd);
* Python's stable list.sort / sorted is modelled by the stable insertion
  sort sortRel below.
-/

/-- A stable insertion step: a is placed before the first b with r a b. -/
def insRel (r : α → α → Bool) (a : α) : List α → List α
  | [] => [a]
  | b :: l => if r a b then a :: b :: l else b :: insRel r a l

/-- Stable insertion sort (model of Python's stable sorted / list.sort:
earlier input elements come first among ties, given a total preorder r
where r a b means "a may be placed before b"). -/
def sortRel (r : α → α → Bool) : List α → List α
  | [] => []
  | a :: l => insRel r a (sortRel r l)

theorem insRel_perm (r : α → α → Bool) (a : α) (l : List α) :
    List.Perm (insRel r a l) (a :: l) := by
  induction l with
  | nil => simp [insRel]
  | cons b l ih =>
    simp only [insRel]
    by_cases h : r a b
    · simp [h]
    · simp only [h, if_neg]
      exact (List.Perm.cons b ih).trans (List.Perm.swap a b l)

theorem sortRel_perm (r : α → α → Bool) (l : List α) :
    List.Perm (sortRel r l) l := by
  induction l with
  | nil => simp [sortRel]
  | cons a l ih =>
    exact (insRel_perm r a (sortRel r l)).trans (List.Perm.cons a ih)

theorem mem_sortRel (r : α → α → Bool) (l : List α) (x : α) :
    x ∈ sortRel r l ↔ x ∈ l :=
  (sortRel_perm r l).mem_iff

theorem length_sortRel (r : α → α → Bool) (l : List α) :
    (sortRel r l).length = l.length :=
  (sortRel_perm r l).length_eq

theorem pairwise_insRel (r : α → α → Bool)
    (htot : ∀ a b, r a b = true ∨ r b a = true)
    (htr : ∀ a b c, r a b = true → r b c = true → r a c = true)
    (a : α) (l : List α) (h : l.Pairwise (fun x y => r x y = true)) :
    (insRel r a l).Pairwise (fun x y => r x y = true) := by
  induction l with
  | nil => simp [insRel]
  | cons b l ih =>
    rcases List.pairwise_cons.mp h with ⟨hb, hl⟩
    by_cases hab : r a b = true
    · have heq : insRel r a (b :: l) = a :: b :: l := by
        simp [insRel, hab]
      rw [heq]
      refine List.pairwise_cons.mpr ⟨?_, h⟩
      intro y hy
      rcases List.mem_cons.mp hy with h1 | h1
      · subst h1
        exact hab
      · exact htr a b y hab (hb y h1)
    · have hba : r b a = true := by
        rcases htot a b with h1 | h1
        · exact absurd h1 hab
        · exact h1
      have heq : insRel r a (b :: l) = b :: insRel r a l := by
        simp [insRel, hab]
      rw [heq]
      refine List.pairwise_cons.mpr ⟨?_, ih hl⟩
      intro y hy
      have hy2 : y ∈ a :: l := (insRel_perm r a l).mem_iff.mp hy
      rcases List.mem_cons.mp hy2 with h1 | h1
      · subst h1
        exact hba
      · exact hb y h1

theorem pairwise_sortRel (r : α → α → Bool)
    (htot : ∀ a b, r a b = true ∨ r b a = true)
    (htr : ∀ a b c, r a b = true → r b c = true → r a c = true)
    (l : List α) :
    (sortRel r l).Pairwise (fun x y => r x y = true) := by
  induction l with
  | nil => simp [sortRel]
  | cons a l ih => exact pairwise_insRel r htot htr a (sortRel r l) ih

/-- Python dict accumulation d[k] = d.get(k, 0) + v, keeping insertion
order: an existing key is updated in place, a new key is appended. -/
def dictAdd [BEq κ] (k : κ) (v : Nat) : List (κ × Nat) → List (κ × Nat)
  | [] => [(k, v)]
  | (k', v') :: d => if k' == k then (k', v' + v) :: d else (k', v') :: dictAdd k v d

/-- Dict lookup with default 0 (Python d.get(k, 0)). -/
def lookupD [BEq κ] (d : List (κ × Nat)) (k : κ) : Nat :=
  match d.find? (fun p => p.1 == k) with
  | some p => p.2
  | none => 0

theorem lookupD_cons [BEq κ] (k' : κ) (v' : Nat) (d : List (κ × Nat)) (x : κ) :
    lookupD ((k', v') :: d) x = if (k' == x) = true then v' else lookupD d x := by
  by_cases h : (k' == x) = true
  · simp [lookupD, List.find?, h]
  · simp only [Bool.not_eq_true] at h
    simp [lookupD, List.find?, h]

theorem lookupD_dictAdd [BEq κ] [LawfulBEq κ] [DecidableEq κ] (k x : κ) (v : Nat)
    (d : List (κ × Nat)) :
    lookupD (dictAdd k v d) x = lookupD d x + (if k = x then v else 0) := by
  induction d with
  | nil =>
    by_cases h : k = x
    · subst h
      simp [dictAdd, lookupD_cons, lookupD]
    · have hb : (k == x) = false := beq_eq_false_iff_ne.mpr h
      simp [dictAdd, lookupD_cons, lookupD, hb, h]
  | cons p d ih =>
    obtain ⟨k', v'⟩ := p
    by_cases hk : k' = k
    · subst hk
      have heq : dictAdd k' v ((k', v') :: d) = (k', v' + v) :: d := by
        simp [dictAdd]
      rw [heq, lookupD_cons, lookupD_cons]
      by_cases hx : k' = x
      · subst hx
        simp
      · have hb : (k' == x) = false := beq_eq_false_iff_ne.mpr hx
        simp [hb, hx]
    · have hb : (k' == k) = false := beq_eq_false_iff_ne.mpr hk
      have heq : dictAdd k v ((k', v') :: d) = (k', v') :: dictAdd k v d := by
        simp [dictAdd, hb]
      rw [heq, lookupD_cons, lookupD_cons]
      by_cases hx : (k' == x) = true
      · have hx2 : k' = x := eq_of_beq hx
        subst hx2
        have : k ≠ k' := fun h => hk h.symm
        simp [hx, this]
      · simp only [hx, if_neg, Bool.false_eq_true, not_false_iff]
        simp only [Bool.not_eq_true] at hx
        simp [hx, ih]

/-- Sum of the values added for key x by a fold of dictAdd over l, where
element p adds value h p under key g p. -/
def sumKey [DecidableEq κ] (g : β → κ) (h : β → Nat) (x : κ) (l : List β) : Nat :=
  (l.map (fun p => if g p = x then h p else 0)).sum

theorem lookupD_foldl_dictAdd [BEq κ] [LawfulBEq κ] [DecidableEq κ]
    (g : β → κ) (h : β → Nat) (x : κ) (l : List β) (d0 : List (κ × Nat)) :
    lookupD (l.foldl (fun d p => dictAdd (g p) (h p) d) d0) x
      = lookupD d0 x + sumKey g h x l := by
  induction l generalizing d0 with
  | nil => simp [sumKey]
  | cons p l ih =>
    simp only [List.foldl_cons, sumKey, List.map_cons, List.sum_cons]
    rw [ih, lookupD_dictAdd]
    by_cases hp : g p = x
    · simp only [sumKey, hp, if_pos]
      ring
    · simp [sumKey, hp]

theorem dictAdd_keys_subset [BEq κ] [LawfulBEq κ] (k : κ) (v : Nat)
    (d : List (κ × Nat)) (x : κ) (hx : x ∈ (dictAdd k v d).map Prod.fst) :
    x ∈ d.map Prod.fst ∨ x = k := by
  induction d with
  | nil =>
    simp [dictAdd] at hx
    exact Or.inr hx
  | cons p d ih =>
    obtain ⟨k', v'⟩ := p
    simp only [dictAdd] at hx
    by_cases hk : k' = k
    · subst hk
      simp only [beq_self_eq_true, if_true, List.map_cons, List.mem_cons] at hx
      rcases hx with h | h
      · exact Or.inl (by simp [h])
      · exact Or.inl (by simp [h])
    · have h1 : (k' == k) = false := beq_eq_false_iff_ne.mpr hk
      simp only [h1, Bool.false_eq_true, if_neg, not_false_iff, List.map_cons,
        List.mem_cons] at hx
      rcases hx with h | h
      · exact Or.inl (by simp [h])
      · rcases ih h with h2 | h2
        · exact Or.inl (by simp; exact Or.inr (by simpa using h2))
        · exact Or.inr h2

theorem dictAdd_values_pos [BEq κ] (k : κ) (v : Nat) (d : List (κ × Nat))
    (hd : ∀ p ∈ d, 0 < p.2) (hv : 0 < v) :
    ∀ p ∈ dictAdd k v d, 0 < p.2 := by
  induction d with
  | nil =>
    intro p hp
    simp [dictAdd] at hp
    simp [hp, hv]
  | cons q d ih =>
    obtain ⟨k', v'⟩ := q
    intro p hp
    simp only [dictAdd] at hp
    by_cases hk : (k' == k) = true
    · simp only [hk, if_true, List.mem_cons] at hp
      rcases hp with h | h
      · subst h
        have := hd (k', v') (by simp)
        simp at this ⊢
        omega
      · exact hd p (by simp [h])
    · simp only [hk, if_neg, Bool.false_eq_true, not_false_iff, List.mem_cons] at hp
      rcases hp with h | h
      · subst h
        exact hd (k', v') (by simp)
      · exact ih (fun q hq => hd q (by simp [hq])) p h

theorem dictAdd_keys_nodup [BEq κ] [LawfulBEq κ] (k : κ) (v : Nat)
    (d : List (κ × Nat)) (hd : (d.map Prod.fst).Nodup) :
    ((dictAdd k v d).map Prod.fst).Nodup := by
  induction d with
  | nil => simp [dictAdd]
  | cons p d ih =>
    obtain ⟨k', v'⟩ := p
    simp only [List.map_cons, List.nodup_cons] at hd
    obtain ⟨hk', hd'⟩ := hd
    simp only [dictAdd]
    by_cases hk : k' = k
    · subst hk
      simp only [beq_self_eq_true, if_true, List.map_cons, List.nodup_cons]
      exact ⟨hk', hd'⟩
    · have h1 : (k' == k) = false := beq_eq_false_iff_ne.mpr hk
      simp only [h1, Bool.false_eq_true, if_neg, not_false_iff, List.map_cons,
        List.nodup_cons]
      refine ⟨?_, ih hd'⟩
      intro hmem
      rcases dictAdd_keys_subset k v d k' hmem with h | h
      · exact hk' h
      · exact hk h

/-! ## Data model (src/backend/models.py) -/

/-- A slang_terms row; only the fields the search core reads or writes.
examples is the JSON array of example sentences and embedding the cached
vector (JSON column, absent or a list; Python truthiness treats an empty
list like an absent one). -/
structure SlangTerm where
  id : Nat
  term : String
  meaning : String
  examples : List String
  is_verified : Bool
  embedding : Option (List ℚ)
deriving Repr, DecidableEq, BEq

/-- A slang_votes row (vote value unused by trending, which counts rows). -/
structure SlangVote where
  slang_id : Nat
  vote : Int
  created_at : Int
deriving Repr, DecidableEq

/-- A search_history row. -/
structure SearchHistory where
  user_id : String
  query : String
  created_at : Int
deriving Repr, DecidableEq

/-- The relational store, as lists in the store's natural order. -/
structure Db where
  terms : List SlangTerm
  votes : List SlangVote
  search_history : List SearchHistory
deriving Repr, DecidableEq

/-- Error taxonomy of the embedding subsystem. -/
inductive EmbErr where
  | dimensionMismatch
  | embeddingFailure
deriving Repr, DecidableEq

/-! ## VectorIndex (faiss.IndexFlatL2) -/

/-- Squared Euclidean distance, the metric of faiss.IndexFlatL2. -/
def sqDist (u v : List ℚ) : ℚ :=
  (List.zipWith (fun a b => (a - b) * (a - b)) u v).sum

/-- A faiss.IndexFlatL2: configured dimension plus the added vectors in
insertion order. -/
structure FaissIndexFlatL2 where
  d : Nat
  xb : List (List ℚ)
deriving Repr, DecidableEq

/-- Sentinel distance faiss reports for padding slots (FLT_MAX-like). -/
def faissPadDist : ℚ := (2 : ℚ) ^ 128

/-- index.search(q, k): checks the query dimension, then returns exactly k
(distance, index) pairs: the vectors sorted by ascending squared distance
(ties in insertion order), truncated to k and padded with (-1)-indexed
sentinel slots when fewer than k vectors are stored. -/
def FaissIndexFlatL2.search (ix : FaissIndexFlatL2) (q : List ℚ) (k : Nat) :
    Except EmbErr (List (ℚ × Int)) :=
  if q.length ≠ ix.d then
    .error .dimensionMismatch
  else
    let scored := ix.xb.enum.map (fun p => (sqDist q p.2, (p.1 : Int)))
    let sorted := sortRel (fun a b => decide (a.1 ≤ b.1)) scored
    .ok (sorted.take k ++ List.replicate (k - ix.xb.length) (faissPadDist, -1))

/-! ## EmbeddingService (src/backend/embeddings.py) -/

/-- The EmbeddingService singleton's state. The sentence-transformer model
itself is an external collaborator and is passed in as a function where
needed. -/
structure EmbeddingService where
  dimension : Nat
  threshold : ℚ
  index : Option FaissIndexFlatL2
  slang_ids : List Nat
deriving Repr, DecidableEq

/-- Python list indexing over a Nat list: nonnegative indices are direct,
negative indices wrap from the end, anything out of range is an IndexError
(none). faiss only ever produces indices in [-1, ntotal). -/
def pyGet (l : List Nat) (i : Int) : Option Nat :=
  if 0 ≤ i then l.get? i.toNat
  else if (-i).toNat ≤ l.length then l.get? (l.length - (-i).toNat)
  else none

/-- The result-conversion loop of EmbeddingService.search (lines 72-80):
skip idx == -1 and idx >= len(slang_ids), convert the squared L2 distance
to similarity = 1 - distance/2, and keep the pair only when the similarity
is at or above the threshold. -/
def resultsLoop (thr : ℚ) (ids : List Nat) : List (ℚ × Int) → List (Nat × ℚ)
  | [] => []
  | (d, idx) :: rest =>
    let tail := resultsLoop thr ids rest
    if idx ≠ -1 ∧ idx < (ids.length : Int) then
      match pyGet ids idx with
      | some sid => if thr ≤ 1 - d / 2 then (sid, 1 - d / 2) :: tail else tail
      | none => tail
    else tail

/-- EmbeddingService.search on an already-encoded query vector: an unbuilt
or empty index short-circuits to an empty result list before any faiss
call (and hence before any dimension check). -/
def EmbeddingService.searchVec (svc : EmbeddingService) (qvec : List ℚ)
    (limit : Nat) : Except EmbErr (List (Nat × ℚ)) :=
  match svc.index with
  | none => .ok []
  | some ix =>
    if ix.xb.length = 0 then .ok []
    else (ix.search qvec limit).map (resultsLoop svc.threshold svc.slang_ids)

/-- EmbeddingService.search on query text: the model encodes the query
only after the empty-index short-circuit, exactly as in the source. -/
def EmbeddingService.search (embed : String → Except EmbErr (List ℚ))
    (svc : EmbeddingService) (query : String) (limit : Nat) :
    Except EmbErr (List (Nat × ℚ)) :=
  match svc.index with
  | none => .ok []
  | some ix =>
    if ix.xb.length = 0 then .ok []
    else do
      let qe ← embed query
      svc.searchVec qe limit

/-- Python truthiness of the cached embedding column: present and a
non-empty list. -/
def truthyEmb (e : SlangTerm) : Bool :=
  match e.embedding with
  | some v => !v.isEmpty
  | none => false

/-- Cached vector value (only read under truthyEmb). -/
def cachedVec (e : SlangTerm) : List ℚ :=
  e.embedding.getD []

/-- The concatenation rule of build_index lines 41-43: term, a space, the
meaning, then (only when examples is a non-empty list) a space and the
first two examples joined by spaces. -/
def textToEmbed (e : SlangTerm) : String :=
  let base := e.term ++ " " ++ e.meaning
  if e.examples.isEmpty then base
  else base ++ " " ++ String.intercalate " " (e.examples.take 2)

/-- Outcome of the per-entry loop of build_index: the store images of the
input entries (with write-through cache commits applied up to the point of
failure), the embedding rows, the parallel id list, the texts sent to the
Embedder, and the first error if one occurred. On an Embedder error the
loop stops: later entries are left untouched and contribute nothing. -/
structure BuildOut where
  entries : List SlangTerm
  vecs : List (List ℚ)
  ids : List Nat
  calls : List String
  err : Option EmbErr
deriving Repr

/-- The per-entry loop of build_index (lines 35-52): a truthy cached
embedding is used as-is with no Embedder call; otherwise the Embedder is
called once on textToEmbed and the result is committed back to the entry
before the next entry is processed. An Embedder exception propagates. -/
def buildLoop (embed : String → Except EmbErr (List ℚ)) :
    List SlangTerm → BuildOut
  | [] => ⟨[], [], [], [], none⟩
  | e :: rest =>
    if truthyEmb e then
      let o := buildLoop embed rest
      ⟨e :: o.entries, cachedVec e :: o.vecs, e.id :: o.ids, o.calls, o.err⟩
    else
      match embed (textToEmbed e) with
      | .error er => ⟨e :: rest, [], [], [textToEmbed e], some er⟩
      | .ok v =>
        let e' := { e with embedding := some v }
        let o := buildLoop embed rest
        ⟨e' :: o.entries, v :: o.vecs, e'.id :: o.ids,
          textToEmbed e :: o.calls, o.err⟩

/-- Splice the processed images of the verified entries back into the
store, in order (the session commit of the write-through cache). -/
def patchStore : List SlangTerm → List SlangTerm → List SlangTerm
  | [], _ => []
  | e :: s, repl =>
    if e.is_verified then repl.headD e :: patchStore s repl.tail
    else e :: patchStore s repl

/-- Result of EmbeddingService.build_index: the new service state, the
store after write-through commits, the Embedder calls made, and the error
if the build aborted. -/
structure BuildRes where
  svc : EmbeddingService
  store : List SlangTerm
  calls : List String
  err : Option EmbErr
deriving Repr

/-- EmbeddingService.build_index (lines 21-57): query the verified
entries; with none, install a fresh empty index; otherwise run the
per-entry loop and, on success, install a new IndexFlatL2 holding the
collected vectors with the parallel id list. On an Embedder error the
exception propagates: the old index object stays in place while slang_ids
has already been partially overwritten by the loop. -/
def EmbeddingService.build_index (embed : String → Except EmbErr (List ℚ))
    (svc : EmbeddingService) (store : List SlangTerm) : BuildRes :=
  let verified := store.filter (fun e => e.is_verified)
  if verified.isEmpty then
    ⟨{ svc with index := some ⟨svc.dimension, []⟩, slang_ids := [] },
      store, [], none⟩
  else
    let o := buildLoop embed verified
    let store' := patchStore store o.entries
    match o.err with
    | some er => ⟨{ svc with slang_ids := o.ids }, store', o.calls, some er⟩
    | none =>
      ⟨{ svc with index := some ⟨svc.dimension, o.vecs⟩, slang_ids := o.ids },
        store', o.calls, none⟩

/-! ## SearchCoordinator (src/backend/routers/search.py, search_slang_terms) -/

/-- Lower-casing as a character map (structural model of Python
str.lower() and SQL LOWER over the model's character lists). -/
def pyLower (s : String) : String :=
  ⟨s.data.map Char.toLower⟩

/-- SQL LIKE-style containment: pat occurs as a contiguous substring of
hay (the empty pattern matches everything). -/
def strContains (hay pat : String) : Bool :=
  (List.range (hay.data.length + 1)).any
    (fun i => pat.data.isPrefixOf (hay.data.drop i))

/-- The keyword fallback (lines 81-93): verified entries whose lowered
term or meaning contains the lowered query, in store order, capped at
limit. -/
def keywordSearch (terms : List SlangTerm) (query : String) (limit : Nat) :
    List SlangTerm :=
  (terms.filter (fun e =>
    e.is_verified &&
      (strContains (pyLower e.term) (pyLower query) ||
        strContains (pyLower e.meaning) (pyLower query)))).take limit

/-- Index of the last occurrence of i in ids, if any (the dict
comprehension id_to_position keeps the last index for a duplicated id). -/
def lastIdxOf : List Nat → Nat → Option Nat
  | [], _ => none
  | a :: l, i =>
    match lastIdxOf l i with
    | some n => some (n + 1)
    | none => if a = i then some 0 else none

/-- id_to_position.get(id, 999) of line 63-65. -/
def posIn (ids : List Nat) (i : Nat) : Nat :=
  (lastIdxOf ids i).getD 999

/-- Store hydration of the semantic result ids (lines 56-65): fetch the
verified entries whose id is among ids (store order), then stable-sort
them by their position in ids. -/
def hydrate (ids : List Nat) (terms : List SlangTerm) : List SlangTerm :=
  sortRel (fun a b => decide (posIn ids a.id ≤ posIn ids b.id))
    (terms.filter (fun e => ids.contains e.id && e.is_verified))

/-- Python str.strip(): remove leading and trailing whitespace
characters (structural model of the source's query.strip()). -/
def pyStrip (s : String) : String :=
  ⟨((s.data.dropWhile Char.isWhitespace).reverse.dropWhile
      Char.isWhitespace).reverse⟩

/-- Application-level errors of the search endpoint. -/
inductive AppErr where
  | invalidQuery
  | emb (e : EmbErr)
deriving Repr, DecidableEq

/-- The initialize_index dependency (src/backend/dependencies.py lines
70-74): build the index when the service holds none yet. -/
def initialize_index (embed : String → Except EmbErr (List ℚ))
    (svc0 : EmbeddingService) (terms : List SlangTerm) : BuildRes :=
  match svc0.index with
  | none => svc0.build_index embed terms
  | some _ => ⟨svc0, terms, [], none⟩

/-- The POST /search handler search_slang_terms. The initialize_index
dependency runs first (building the index, with its cache write-through,
when none exists); then the query is stripped and rejected if empty; then
the search is recorded in search_history for an authenticated caller;
then the semantic path runs when enabled, and the keyword fallback is
used exactly when it produced no hydrated results. The store and service
state are returned alongside the outcome (on an error they hold whatever
had already been committed). -/
def search_slang_terms (embed : String → Except EmbErr (List ℚ)) (now : Int)
    (db : Db) (current_user : Option String) (rawQuery : String)
    (semantic : Bool) (limit : Nat) (svc0 : EmbeddingService) :
    Except AppErr (List SlangTerm) × Db × EmbeddingService :=
  let init : BuildRes := initialize_index embed svc0 db.terms
  let db1 : Db := { db with terms := init.store }
  let svc := init.svc
  match init.err with
  | some er => (.error (.emb er), db1, svc)
  | none =>
    let q := pyStrip rawQuery
    if q = "" then (.error .invalidQuery, db1, svc)
    else
      let db2 : Db :=
        match current_user with
        | some u => { db1 with search_history := db1.search_history ++ [⟨u, q, now⟩] }
        | none => db1
      let semRes : Except EmbErr (List (Nat × ℚ)) :=
        if semantic then EmbeddingService.search embed svc q limit else .ok []
      match semRes with
      | .error er => (.error (.emb er), db2, svc)
      | .ok srs =>
        let results := hydrate (srs.map Prod.fst) db2.terms
        let final := if results.isEmpty then keywordSearch db2.terms q limit
          else results
        (.ok final, db2, svc)

/-! ## TrendingRanker (src/backend/routers/search.py, get_trending_terms) -/

def voteCountIn (db : Db) (recentDate : Int) (i : Nat) : Nat :=
  (db.votes.filter (fun v => v.slang_id == i && recentDate ≤ v.created_at)).length

/-- The recent-votes subquery rows: one (id, window-vote count) row per
verified term joined to at least one vote inside the window, in store
order (the deterministic reading of the unordered SQL GROUP BY). -/
def voteGroups (db : Db) (recentDate : Int) : List (Nat × Nat) :=
  (db.terms.filter (fun e => e.is_verified)).filterMap (fun e =>
    if voteCountIn db recentDate e.id = 0 then none
    else some (e.id, voteCountIn db recentDate e.id))

/-- GROUP BY query over the window's search_history rows: one
(query, count) group per distinct text, in first-occurrence order. -/
def groupCounts (db : Db) (recentDate : Int) : List (String × Nat) :=
  ((db.search_history.filter (fun s => recentDate ≤ s.created_at)).map
    (fun s => s.query)).foldl (fun d q => dictAdd q 1 d) []

/-- The grouped window searches ordered by descending count (ties in
group order, the deterministic reading of the unordered SQL tie). -/
def sortedGroups (db : Db) (recentDate : Int) : List (String × Nat) :=
  sortRel (fun a b => decide (b.2 ≤ a.2)) (groupCounts db recentDate)

/-- recent_searches (lines 139-146): the 100 most frequent distinct
window query texts with their counts. -/
def topQueries (db : Db) (recentDate : Int) : List (String × Nat) :=
  (sortedGroups db recentDate).take 100

/-- Whether a search text q counts toward term e: the term's lowered text
contains the lowered query (lines 150-153). -/
def termMatches (e : SlangTerm) (q : String) : Bool :=
  strContains (pyLower e.term) (pyLower q)

/-- search_counts (lines 148-154): for each top query, every verified
matching term (store order) accumulates the query's count. -/
def searchCounts (db : Db) (recentDate : Int) : List (Nat × Nat) :=
  (topQueries db recentDate).foldl (fun d p =>
    ((db.terms.filter (fun e => e.is_verified && termMatches e p.1)).foldl
      (fun d' e => dictAdd e.id p.2 d') d)) []

/-- trending_scores (lines 156-165): vote counts weighted by two, then
the search counts, accumulated into one insertion-ordered dict. -/
def trendingScores (db : Db) (recentDate : Int) : List (Nat × Nat) :=
  (searchCounts db recentDate).foldl (fun d p => dictAdd p.1 p.2 d)
    ((voteGroups db recentDate).foldl (fun d p => dictAdd p.1 (2 * p.2) d) [])

/-- The search-signal part of an entry's trending score: the summed
counts of the top-100 window queries its term text contains. -/
def searchScore (db : Db) (recentDate : Int) (e : SlangTerm) : Nat :=
  ((topQueries db recentDate).map (fun p =>
    if termMatches e p.1 then p.2 else 0)).sum

/-- GET /search/trending (lines 112-196): sort the scored ids descending
(Python stable sort over dict insertion order), truncate to limit, fetch
those terms from the store, and stable-sort the rows by score again. -/
def get_trending_terms (db : Db) (limit : Nat) (recentDate : Int) :
    List SlangTerm :=
  let scores := trendingScores db recentDate
  let topIds := (sortRel (fun i j => decide (lookupD scores j ≤ lookupD scores i))
    (scores.map Prod.fst)).take limit
  let ts := db.terms.filter (fun e => topIds.contains e.id)
  sortRel (fun a b => decide (lookupD scores b.id ≤ lookupD scores a.id)) ts

/-! ## Facts about the result-conversion loop -/

theorem pyGet_mem (l : List Nat) (i : Int) (x : Nat) (h : pyGet l i = some x) :
    x ∈ l := by
  unfold pyGet at h
  split at h
  · exact List.get?_mem h
  · split at h
    · exact List.get?_mem h
    · exact absurd h (by simp)

theorem resultsLoop_cons_neg1 (thr : ℚ) (ids : List Nat) (d : ℚ)
    (rest : List (ℚ × Int)) :
    resultsLoop thr ids ((d, -1) :: rest) = resultsLoop thr ids rest := by
  simp [resultsLoop]

theorem resultsLoop_cons_valid (thr : ℚ) (ids : List Nat) (d : ℚ) (i : Nat)
    (h : i < ids.length) (rest : List (ℚ × Int)) :
    resultsLoop thr ids ((d, (i : Int)) :: rest)
      = if thr ≤ 1 - d / 2 then
          (ids.get ⟨i, h⟩, 1 - d / 2) :: resultsLoop thr ids rest
        else resultsLoop thr ids rest := by
  have h1 : ((i : Int) ≠ -1 ∧ (i : Int) < (ids.length : Int)) := by
    constructor
    · intro hc
      omega
    · exact_mod_cast h
  have h2 : pyGet ids (i : Int) = some (ids.get ⟨i, h⟩) := by
    unfold pyGet
    have : (0 : Int) ≤ (i : Int) := Int.natCast_nonneg i
    rw [if_pos this]
    simp [List.get?_eq_get h]
  simp only [resultsLoop, if_pos h1, h2]

theorem resultsLoop_length_le (thr : ℚ) (ids : List Nat)
    (pairs : List (ℚ × Int)) :
    (resultsLoop thr ids pairs).length ≤ pairs.length := by
  induction pairs with
  | nil => simp [resultsLoop]
  | cons p rest ih =>
    obtain ⟨d, idx⟩ := p
    simp only [resultsLoop]
    split
    · split
      · split
        · simpa using Nat.succ_le_succ ih
        · exact Nat.le_succ_of_le ih
      · exact Nat.le_succ_of_le ih
    · exact Nat.le_succ_of_le ih

theorem resultsLoop_fst_mem (thr : ℚ) (ids : List Nat)
    (pairs : List (ℚ × Int)) (r : Nat × ℚ) (hr : r ∈ resultsLoop thr ids pairs) :
    r.1 ∈ ids := by
  induction pairs with
  | nil => simp [resultsLoop] at hr
  | cons p rest ih =>
    obtain ⟨d, idx⟩ := p
    by_cases hguard : idx ≠ -1 ∧ idx < (ids.length : Int)
    · rcases hg : pyGet ids idx with _ | sid
      · have heq : resultsLoop thr ids ((d, idx) :: rest)
            = resultsLoop thr ids rest := by
          simp [resultsLoop, hguard, hg]
        rw [heq] at hr
        exact ih hr
      · by_cases hthr : thr ≤ 1 - d / 2
        · have heq : resultsLoop thr ids ((d, idx) :: rest)
              = (sid, 1 - d / 2) :: resultsLoop thr ids rest := by
            simp [resultsLoop, hguard, hg, hthr]
          rw [heq] at hr
          rcases List.mem_cons.mp hr with h1 | h1
          · subst h1
            exact pyGet_mem ids idx _ hg
          · exact ih h1
        · have heq : resultsLoop thr ids ((d, idx) :: rest)
              = resultsLoop thr ids rest := by
            simp [resultsLoop, hguard, hg, hthr]
          rw [heq] at hr
          exact ih hr
    · have heq : resultsLoop thr ids ((d, idx) :: rest)
          = resultsLoop thr ids rest := by
        simp [resultsLoop, hguard]
      rw [heq] at hr
      exact ih hr

theorem resultsLoop_thr_le (thr : ℚ) (ids : List Nat)
    (pairs : List (ℚ × Int)) (r : Nat × ℚ) (hr : r ∈ resultsLoop thr ids pairs) :
    thr ≤ r.2 := by
  induction pairs with
  | nil => simp [resultsLoop] at hr
  | cons p rest ih =>
    obtain ⟨d, idx⟩ := p
    by_cases hguard : idx ≠ -1 ∧ idx < (ids.length : Int)
    · rcases hg : pyGet ids idx with _ | sid
      · have heq : resultsLoop thr ids ((d, idx) :: rest)
            = resultsLoop thr ids rest := by
          simp [resultsLoop, hguard, hg]
        rw [heq] at hr
        exact ih hr
      · by_cases hthr : thr ≤ 1 - d / 2
        · have heq : resultsLoop thr ids ((d, idx) :: rest)
              = (sid, 1 - d / 2) :: resultsLoop thr ids rest := by
            simp [resultsLoop, hguard, hg, hthr]
          rw [heq] at hr
          rcases List.mem_cons.mp hr with h1 | h1
          · subst h1
            exact hthr
          · exact ih h1
        · have heq : resultsLoop thr ids ((d, idx) :: rest)
              = resultsLoop thr ids rest := by
            simp [resultsLoop, hguard, hg, hthr]
          rw [heq] at hr
          exact ih hr
    · have heq : resultsLoop thr ids ((d, idx) :: rest)
          = resultsLoop thr ids rest := by
        simp [resultsLoop, hguard]
      rw [heq] at hr
      exact ih hr

theorem resultsLoop_mem_iff (thr : ℚ) (ids : List Nat)
    (pairs : List (ℚ × Int))
    (hvalid : ∀ p ∈ pairs, p.2 = -1 ∨ ∃ i : Nat, p.2 = (i : Int) ∧ i < ids.length)
    (r : Nat × ℚ) :
    r ∈ resultsLoop thr ids pairs ↔
      ∃ (d : ℚ) (i : Nat) (h : i < ids.length), (d, (i : Int)) ∈ pairs ∧
        thr ≤ 1 - d / 2 ∧ r = (ids.get ⟨i, h⟩, 1 - d / 2) := by
  induction pairs with
  | nil => simp [resultsLoop]
  | cons p rest ih =>
    have hvrest : ∀ q ∈ rest, q.2 = -1 ∨ ∃ i : Nat, q.2 = (i : Int) ∧ i < ids.length :=
      fun q hq => hvalid q (List.mem_cons_of_mem p hq)
    have ihr := ih hvrest
    obtain ⟨d, idx⟩ := p
    rcases hvalid (d, idx) (List.mem_cons_self _ _) with hneg | ⟨i, hi, hlt⟩
    · simp only at hneg
      subst hneg
      rw [resultsLoop_cons_neg1, ihr]
      constructor
      · rintro ⟨d', i', h', hmem, hthr', hreq⟩
        exact ⟨d', i', h', List.mem_cons_of_mem _ hmem, hthr', hreq⟩
      · rintro ⟨d', i', h', hmem, hthr', hreq⟩
        rcases List.mem_cons.mp hmem with h1 | h1
        · have h2 : ((i' : Int)) = -1 := by
            have h3 := congrArg Prod.snd h1
            simpa using h3
          omega
        · exact ⟨d', i', h', h1, hthr', hreq⟩
    · simp only at hi
      subst hi
      rw [resultsLoop_cons_valid thr ids d i hlt]
      by_cases hthr : thr ≤ 1 - d / 2
      · rw [if_pos hthr]
        constructor
        · intro hr
          rcases List.mem_cons.mp hr with h1 | h1
          · exact ⟨d, i, hlt, List.mem_cons_self _ _, hthr, h1⟩
          · obtain ⟨d', i', h', hmem, hthr', hreq⟩ := ihr.mp h1
            exact ⟨d', i', h', List.mem_cons_of_mem _ hmem, hthr', hreq⟩
        · rintro ⟨d', i', h', hmem, hthr', hreq⟩
          rcases List.mem_cons.mp hmem with h1 | h1
          · have hd : d' = d := by
              have := congrArg Prod.fst h1
              simpa using this
            have hii : i' = i := by
              have := congrArg Prod.snd h1
              simpa using this
            subst hd
            subst hii
            rw [hreq]
            exact List.mem_cons_self _ _
          · exact List.mem_cons_of_mem _ (ihr.mpr ⟨d', i', h', h1, hthr', hreq⟩)
      · rw [if_neg hthr, ihr]
        constructor
        · rintro ⟨d', i', h', hmem, hthr', hreq⟩
          exact ⟨d', i', h', List.mem_cons_of_mem _ hmem, hthr', hreq⟩
        · rintro ⟨d', i', h', hmem, hthr', hreq⟩
          rcases List.mem_cons.mp hmem with h1 | h1
          · have hd : d' = d := by
              have := congrArg Prod.fst h1
              simpa using this
            subst hd
            exact absurd hthr' hthr
          · exact ⟨d', i', h', h1, hthr', hreq⟩

/-- Claim C1: every result produced by the vector search has similarity
equal to 1 minus half the squared Euclidean distance faiss reported for
it, and a candidate is included exactly when that similarity is at or
above the configured threshold (the boundary itself is included). -/
theorem C1_similarity_and_threshold (thr : ℚ) (ids : List Nat)
    (pairs : List (ℚ × Int))
    (hvalid : ∀ p ∈ pairs, p.2 = -1 ∨ ∃ i : Nat, p.2 = (i : Int) ∧ i < ids.length) :
    (∀ r ∈ resultsLoop thr ids pairs,
        thr ≤ r.2 ∧ ∃ (d : ℚ) (i : Nat) (h : i < ids.length),
          (d, (i : Int)) ∈ pairs ∧ r = (ids.get ⟨i, h⟩, 1 - d / 2))
    ∧ ∀ (d : ℚ) (i : Nat) (h : i < ids.length), (d, (i : Int)) ∈ pairs →
        (thr ≤ 1 - d / 2 ↔
          (ids.get ⟨i, h⟩, 1 - d / 2) ∈ resultsLoop thr ids pairs) := by
  constructor
  · intro r hr
    refine ⟨resultsLoop_thr_le thr ids pairs r hr, ?_⟩
    obtain ⟨d, i, h, hmem, _, hreq⟩ :=
      (resultsLoop_mem_iff thr ids pairs hvalid r).mp hr
    exact ⟨d, i, h, hmem, hreq⟩
  · intro d i h hmem
    constructor
    · intro hthr
      exact (resultsLoop_mem_iff thr ids pairs hvalid _).mpr
        ⟨d, i, h, hmem, hthr, rfl⟩
    · intro hr
      have := resultsLoop_thr_le thr ids pairs _ hr
      simpa using this

/-- Witness for C1 at a concrete boundary input: with threshold 7/10 the
candidate at squared distance 3/5 (similarity exactly 7/10) is included
and the one at 4/5 (similarity 3/5) is excluded. -/
theorem C1_witness :
    (∀ p ∈ [((3 : ℚ)/5, (0 : Int)), (4/5, 1)],
        p.2 = -1 ∨ ∃ i : Nat, p.2 = (i : Int) ∧ i < [10, 20].length) ∧
      ((∀ r ∈ resultsLoop (7/10) [10, 20] [((3 : ℚ)/5, (0 : Int)), (4/5, 1)],
          (7 : ℚ)/10 ≤ r.2 ∧ ∃ (d : ℚ) (i : Nat) (h : i < [10, 20].length),
            (d, (i : Int)) ∈ [((3 : ℚ)/5, (0 : Int)), (4/5, 1)] ∧
              r = ([10, 20].get ⟨i, h⟩, 1 - d / 2))
      ∧ ∀ (d : ℚ) (i : Nat) (h : i < [10, 20].length),
          (d, (i : Int)) ∈ [((3 : ℚ)/5, (0 : Int)), (4/5, 1)] →
          ((7 : ℚ)/10 ≤ 1 - d / 2 ↔
            ([10, 20].get ⟨i, h⟩, 1 - d / 2) ∈
              resultsLoop (7/10) [10, 20] [((3 : ℚ)/5, (0 : Int)), (4/5, 1)])) := by
  constructor
  · intro p hp
    rcases List.mem_cons.mp hp with h1 | h1
    · subst h1
      exact Or.inr ⟨0, rfl, by decide⟩
    · rcases List.mem_cons.mp h1 with h2 | h2
      · subst h2
        exact Or.inr ⟨1, rfl, by decide⟩
      · simp at h2
  · exact C1_similarity_and_threshold (7/10) [10, 20]
      [((3 : ℚ)/5, (0 : Int)), (4/5, 1)] (by
        intro p hp
        rcases List.mem_cons.mp hp with h1 | h1
        · subst h1
          exact Or.inr ⟨0, rfl, by decide⟩
        · rcases List.mem_cons.mp h1 with h2 | h2
          · subst h2
            exact Or.inr ⟨1, rfl, by decide⟩
          · simp at h2)

/-! ## C8: dimension mismatch -/

/-- Claim C8, amended: a query vector whose length differs from the
index's configured dimension makes the vector query fail with
DimensionMismatch whenever an index is present and non-empty; with an
unbuilt or empty index the operation short-circuits to an empty result
before any dimension check. -/
theorem C8_dimension_mismatch (svc : EmbeddingService) (ix : FaissIndexFlatL2)
    (qvec : List ℚ) (k : Nat) (hix : svc.index = some ix)
    (hne : ix.xb.length ≠ 0) (hd : qvec.length ≠ ix.d) :
    svc.searchVec qvec k = .error .dimensionMismatch := by
  unfold EmbeddingService.searchVec
  rw [hix]
  simp only [hne, if_neg, not_false_iff]
  unfold FaissIndexFlatL2.search
  rw [if_pos hd]
  rfl

/-- Counterexample to claim C8 as stated: a query vector of length 2
against a service configured for dimension 3 whose (empty) index exists
returns an empty result instead of failing with DimensionMismatch. -/
theorem C8_counterexample :
    EmbeddingService.searchVec ⟨3, 7/10, some ⟨3, []⟩, []⟩ [(1 : ℚ), 2] 5
        = .ok []
      ∧ ([(1 : ℚ), 2].length ≠ (3 : Nat)) := by
  constructor
  · rfl
  · decide

/-- Witness for C8 at a concrete input: a one-vector index of dimension 3
queried with a length-2 vector. -/
theorem C8_witness :
    (some (⟨3, [[(0 : ℚ), 0, 0]]⟩ : FaissIndexFlatL2)
        = some (⟨3, [[(0 : ℚ), 0, 0]]⟩ : FaissIndexFlatL2))
      ∧ ([[(0 : ℚ), 0, 0]].length ≠ 0)
      ∧ ([(1 : ℚ), 2].length ≠ 3)
      ∧ EmbeddingService.searchVec ⟨3, 7/10, some ⟨3, [[(0 : ℚ), 0, 0]]⟩, [4]⟩
          [(1 : ℚ), 2] 5 = .error .dimensionMismatch := by
  refine ⟨rfl, by decide, by decide, ?_⟩
  exact C8_dimension_mismatch ⟨3, 7/10, some ⟨3, [[(0 : ℚ), 0, 0]]⟩, [4]⟩
    ⟨3, [[(0 : ℚ), 0, 0]]⟩ [(1 : ℚ), 2] 5 rfl (by decide) (by decide)

/-! ## C5 / C4: rebuild behavior -/

/-- An Embedder that fails exactly on the text "a b". -/
def ceEmbedFail : String → Except EmbErr (List ℚ) :=
  fun t => if t = "a b" then .error .embeddingFailure else .ok [1]

/-- Two uncached verified entries; the first one's text is "a b". -/
def ceStore5 : List SlangTerm :=
  [⟨1, "a", "b", [], true, none⟩, ⟨2, "c", "d", [], true, none⟩]

/-- A fresh service with no index built yet. -/
def ceSvc : EmbeddingService := ⟨3, 7/10, none, []⟩

/-- Counterexample to claim C5 as stated: with an Embedder failing on the
first entry, the rebuild does not complete with that entry excluded and
the second included — the error propagates, no index is installed, and
the second entry is never even embedded. -/
theorem C5_counterexample :
    (EmbeddingService.build_index ceEmbedFail ceSvc ceStore5).err
        = some .embeddingFailure
      ∧ (EmbeddingService.build_index ceEmbedFail ceSvc ceStore5).svc.index = none
      ∧ (EmbeddingService.build_index ceEmbedFail ceSvc ceStore5).calls = ["a b"] := by
  refine ⟨by decide, by decide, by decide⟩

/-- Claim C5, amended: an Embedder failure for one entry aborts the whole
rebuild instead of excluding just that entry: the error propagates out of
build_index and the previously installed index (if any) stays in place
unchanged. -/
theorem C5_failure_aborts_rebuild (embed : String → Except EmbErr (List ℚ))
    (svc : EmbeddingService) (store : List SlangTerm) (er : EmbErr)
    (herr : (buildLoop embed (store.filter (fun e => e.is_verified))).err = some er) :
    (svc.build_index embed store).svc.index = svc.index
      ∧ (svc.build_index embed store).err = some er := by
  unfold EmbeddingService.build_index
  by_cases hemp : (store.filter (fun e => e.is_verified)).isEmpty = true
  · exfalso
    have hnil : store.filter (fun e => e.is_verified) = [] :=
      List.isEmpty_iff.mp hemp
    rw [hnil] at herr
    simp [buildLoop] at herr
  · simp only [hemp, if_neg, Bool.false_eq_true, not_false_iff, herr]
    constructor <;> trivial

theorem buildLoop_success (embed : String → Except EmbErr (List ℚ))
    (entries : List SlangTerm)
    (h : (buildLoop embed entries).err = none) :
    (buildLoop embed entries).calls
        = (entries.filter (fun e => !truthyEmb e)).map textToEmbed
    ∧ List.Forall₂ (fun e e' =>
        (truthyEmb e = true → e' = e) ∧
        (truthyEmb e = false → ∃ v, embed (textToEmbed e) = .ok v ∧
          e' = { e with embedding := some v }))
        entries (buildLoop embed entries).entries
    ∧ (buildLoop embed entries).vecs
        = (buildLoop embed entries).entries.map cachedVec
    ∧ (buildLoop embed entries).ids = entries.map (fun e => e.id) := by
  induction entries with
  | nil => exact ⟨rfl, List.Forall₂.nil, rfl, rfl⟩
  | cons e rest ih =>
    by_cases ht : truthyEmb e = true
    · have heq : buildLoop embed (e :: rest)
          = ⟨e :: (buildLoop embed rest).entries,
              cachedVec e :: (buildLoop embed rest).vecs,
              e.id :: (buildLoop embed rest).ids,
              (buildLoop embed rest).calls,
              (buildLoop embed rest).err⟩ := by
        simp [buildLoop, ht]
      rw [heq] at h ⊢
      obtain ⟨ih1, ih2, ih3, ih4⟩ := ih h
      refine ⟨?_, ?_, ?_, ?_⟩
      · simpa [List.filter_cons, ht] using ih1
      · exact List.Forall₂.cons
          ⟨fun _ => rfl, fun hc => absurd ht (by simp [hc])⟩ ih2
      · simp [ih3]
      · simp [ih4]
    · have htf : truthyEmb e = false := by
        simpa using ht
      rcases hok : embed (textToEmbed e) with er | v
      · exfalso
        have heq : (buildLoop embed (e :: rest)).err = some er := by
          simp [buildLoop, htf, hok]
        rw [h] at heq
        exact absurd heq (by simp)
      · have heq : buildLoop embed (e :: rest)
            = ⟨{ e with embedding := some v } :: (buildLoop embed rest).entries,
                v :: (buildLoop embed rest).vecs,
                e.id :: (buildLoop embed rest).ids,
                textToEmbed e :: (buildLoop embed rest).calls,
                (buildLoop embed rest).err⟩ := by
          simp [buildLoop, htf, hok]
        rw [heq] at h ⊢
        obtain ⟨ih1, ih2, ih3, ih4⟩ := ih h
        refine ⟨?_, ?_, ?_, ?_⟩
        · simpa [List.filter_cons, htf] using ih1
        · exact List.Forall₂.cons
            ⟨fun hc => absurd hc (by simp [htf]),
              fun _ => ⟨v, hok, rfl⟩⟩ ih2
        · simp [ih3, cachedVec]
        · simp [ih4]

/-- Claim C4: during a rebuild, every verified entry with a (truthy)
cached vector triggers zero Embedder calls and its cached vector is used
as-is; every verified entry without one triggers exactly one call, on the
term/meaning/first-two-examples concatenation, and the computed vector is
persisted back onto the entry, the index being built from exactly the
persisted vectors. -/
theorem C4_write_through_cache (embed : String → Except EmbErr (List ℚ))
    (svc : EmbeddingService) (store : List SlangTerm)
    (h : (buildLoop embed (store.filter (fun e => e.is_verified))).err = none) :
    (buildLoop embed (store.filter (fun e => e.is_verified))).calls
        = ((store.filter (fun e => e.is_verified)).filter
            (fun e => !truthyEmb e)).map textToEmbed
    ∧ List.Forall₂ (fun e e' =>
        (truthyEmb e = true → e' = e) ∧
        (truthyEmb e = false → ∃ v, embed (textToEmbed e) = .ok v ∧
          e' = { e with embedding := some v }))
        (store.filter (fun e => e.is_verified))
        (buildLoop embed (store.filter (fun e => e.is_verified))).entries
    ∧ (buildLoop embed (store.filter (fun e => e.is_verified))).vecs
        = (buildLoop embed (store.filter (fun e => e.is_verified))).entries.map
            cachedVec
    ∧ (svc.build_index embed store).calls
        = (buildLoop embed (store.filter (fun e => e.is_verified))).calls := by
  obtain ⟨h1, h2, h3, _⟩ :=
    buildLoop_success embed (store.filter (fun e => e.is_verified)) h
  refine ⟨h1, h2, h3, ?_⟩
  unfold EmbeddingService.build_index
  by_cases hemp : (store.filter (fun e => e.is_verified)).isEmpty = true
  · have hnil : store.filter (fun e => e.is_verified) = [] :=
      List.isEmpty_iff.mp hemp
    simp only [hemp, if_pos]
    rw [hnil]
    simp [buildLoop]
  · simp only [hemp, if_neg, Bool.false_eq_true, not_false_iff, h]

/-- The always-succeeding Embedder of the C4 witness. -/
def c4Embed : String → Except EmbErr (List ℚ) := fun _ => .ok [1]

/-- The C4 witness store: one cached and one uncached verified entry. -/
def c4Store : List SlangTerm :=
  [⟨1, "a", "b", [], true, some [5]⟩,
   ⟨2, "c", "d", ["x", "y", "z"], true, none⟩]

/-- Witness for C4 at the concrete store c4Store. -/
theorem C4_witness :
    ((buildLoop c4Embed (c4Store.filter (fun e => e.is_verified))).err = none)
      ∧ ((buildLoop c4Embed (c4Store.filter (fun e => e.is_verified))).calls
            = ((c4Store.filter (fun e => e.is_verified)).filter
                (fun e => !truthyEmb e)).map textToEmbed
        ∧ List.Forall₂ (fun e e' =>
            (truthyEmb e = true → e' = e) ∧
            (truthyEmb e = false → ∃ v, c4Embed (textToEmbed e) = .ok v ∧
              e' = { e with embedding := some v }))
            (c4Store.filter (fun e => e.is_verified))
            (buildLoop c4Embed (c4Store.filter (fun e => e.is_verified))).entries
        ∧ (buildLoop c4Embed (c4Store.filter (fun e => e.is_verified))).vecs
            = ((buildLoop c4Embed
                (c4Store.filter (fun e => e.is_verified))).entries).map cachedVec
        ∧ (EmbeddingService.build_index c4Embed ⟨3, 7/10, none, []⟩ c4Store).calls
            = (buildLoop c4Embed
                (c4Store.filter (fun e => e.is_verified))).calls) := by
  refine ⟨by decide, ?_⟩
  exact C4_write_through_cache c4Embed ⟨3, 7/10, none, []⟩ c4Store (by decide)

/-- Witness for C5: applying the amended theorem at the concrete failing
store. -/
theorem C5_witness :
    ((buildLoop ceEmbedFail (ceStore5.filter (fun e => e.is_verified))).err
        = some .embeddingFailure)
      ∧ ((EmbeddingService.build_index ceEmbedFail ceSvc ceStore5).svc.index
            = ceSvc.index
        ∧ (EmbeddingService.build_index ceEmbedFail ceSvc ceStore5).err
            = some .embeddingFailure) := by
  refine ⟨by decide, ?_⟩
  exact C5_failure_aborts_rebuild ceEmbedFail ceSvc ceStore5 .embeddingFailure
    (by decide)

/-! ## C7: rebuild-then-query soundness -/

theorem build_index_empty (embed : String → Except EmbErr (List ℚ))
    (svc : EmbeddingService) (store : List SlangTerm)
    (hemp : (store.filter (fun e => e.is_verified)).isEmpty = true) :
    svc.build_index embed store
      = ⟨{ svc with index := some ⟨svc.dimension, []⟩, slang_ids := [] },
          store, [], none⟩ := by
  unfold EmbeddingService.build_index
  simp [hemp]

theorem build_index_err_eq (embed : String → Except EmbErr (List ℚ))
    (svc : EmbeddingService) (store : List SlangTerm)
    (hne : (store.filter (fun e => e.is_verified)).isEmpty = false) :
    (svc.build_index embed store).err
      = (buildLoop embed (store.filter (fun e => e.is_verified))).err := by
  unfold EmbeddingService.build_index
  simp only [hne, Bool.false_eq_true, if_neg, not_false_iff]
  rcases hoe : (buildLoop embed (store.filter (fun e => e.is_verified))).err
    with _ | er <;> simp [hoe]

theorem build_index_success_svc (embed : String → Except EmbErr (List ℚ))
    (svc : EmbeddingService) (store : List SlangTerm)
    (hne : (store.filter (fun e => e.is_verified)).isEmpty = false)
    (h : (buildLoop embed (store.filter (fun e => e.is_verified))).err = none) :
    (svc.build_index embed store).svc
      = { svc with
          index := some ⟨svc.dimension,
            (buildLoop embed (store.filter (fun e => e.is_verified))).vecs⟩,
          slang_ids := (buildLoop embed (store.filter (fun e => e.is_verified))).ids } := by
  unfold EmbeddingService.build_index
  simp only [hne, Bool.false_eq_true, if_neg, not_false_iff, h]

theorem build_index_store_eq (embed : String → Except EmbErr (List ℚ))
    (svc : EmbeddingService) (store : List SlangTerm)
    (hne : (store.filter (fun e => e.is_verified)).isEmpty = false) :
    (svc.build_index embed store).store
      = patchStore store
          (buildLoop embed (store.filter (fun e => e.is_verified))).entries := by
  unfold EmbeddingService.build_index
  simp only [hne, Bool.false_eq_true, if_neg, not_false_iff]
  rcases hoe : (buildLoop embed (store.filter (fun e => e.is_verified))).err
    with _ | er <;> simp [hoe]

theorem faiss_search_ok_length (ix : FaissIndexFlatL2) (q : List ℚ) (k : Nat)
    (pairs : List (ℚ × Int)) (h : ix.search q k = .ok pairs) :
    pairs.length = k := by
  unfold FaissIndexFlatL2.search at h
  by_cases hd : q.length ≠ ix.d
  · rw [if_pos hd] at h
    exact absurd h (by simp)
  · rw [if_neg hd] at h
    have heq := Except.ok.inj h
    rw [← heq]
    simp only [List.length_append, List.length_take, length_sortRel,
      List.length_map, List.enum_length, List.length_replicate]
    omega

/-- Claim C7: after a successful rebuild from a store, every identifier a
vector query returns belongs to the store, the query returns at most
limit results, and a query against a freshly built empty index returns an
empty list without error. -/
theorem C7_rebuild_query_sound (embed : String → Except EmbErr (List ℚ))
    (svc : EmbeddingService) (store : List SlangTerm) (qvec : List ℚ) (k : Nat)
    (h : (svc.build_index embed store).err = none) :
    (∀ rs, (svc.build_index embed store).svc.searchVec qvec k = .ok rs →
        rs.length ≤ k ∧ ∀ r ∈ rs, r.1 ∈ store.map (fun e => e.id))
    ∧ (store.filter (fun e => e.is_verified) = [] →
        (svc.build_index embed store).svc.searchVec qvec k = .ok []) := by
  by_cases hemp : (store.filter (fun e => e.is_verified)).isEmpty = true
  · rw [build_index_empty embed svc store hemp]
    constructor
    · intro rs hrs
      have : Except.ok (ε := EmbErr) ([] : List (Nat × ℚ)) = .ok rs := by
        rw [← hrs]
        rfl
      have hrs0 : rs = [] := (Except.ok.inj this).symm
      subst hrs0
      exact ⟨Nat.zero_le k, by simp⟩
    · intro _
      rfl
  · have hne : (store.filter (fun e => e.is_verified)).isEmpty = false := by
      simpa using hemp
    have hloop : (buildLoop embed (store.filter (fun e => e.is_verified))).err
        = none := by
      rw [← build_index_err_eq embed svc store hne]
      exact h
    have hsvc := build_index_success_svc embed svc store hne hloop
    obtain ⟨_, _, _, hids⟩ :=
      buildLoop_success embed (store.filter (fun e => e.is_verified)) hloop
    constructor
    · intro rs hrs
      rw [hsvc] at hrs
      unfold EmbeddingService.searchVec at hrs
      simp only at hrs
      by_cases hv0 : (buildLoop embed
          (store.filter (fun e => e.is_verified))).vecs.length = 0
      · rw [if_pos hv0] at hrs
        have hrs0 : rs = [] := (Except.ok.inj hrs).symm
        subst hrs0
        exact ⟨Nat.zero_le k, by simp⟩
      · rw [if_neg hv0] at hrs
        rcases hf : FaissIndexFlatL2.search
            ⟨svc.dimension,
              (buildLoop embed (store.filter (fun e => e.is_verified))).vecs⟩
            qvec k with er | pairs
        · rw [hf] at hrs
          exact absurd hrs (by simp [Except.map])
        · rw [hf] at hrs
          simp only [Except.map] at hrs
          have hrs2 : rs = resultsLoop svc.threshold
              (buildLoop embed (store.filter (fun e => e.is_verified))).ids
              pairs := (Except.ok.inj hrs).symm
          subst hrs2
          constructor
          · calc (resultsLoop _ _ pairs).length
                ≤ pairs.length := resultsLoop_length_le _ _ pairs
              _ = k := faiss_search_ok_length _ qvec k pairs hf
          · intro r hr
            have hmem := resultsLoop_fst_mem _ _ pairs r hr
            rw [hids] at hmem
            obtain ⟨e, he, heid⟩ := List.mem_map.mp hmem
            exact List.mem_map.mpr ⟨e, List.mem_of_mem_filter he, heid⟩
    · intro hv
      rw [hv] at hne
      simp at hne

/-- Witness for C7: a store with a single cached verified entry, rebuilt
and queried. -/
theorem C7_witness :
    ((EmbeddingService.build_index c4Embed ⟨3, 7/10, none, []⟩
        [⟨1, "a", "b", [], true, some [(0 : ℚ), 0, 0]⟩]).err = none)
      ∧ ((∀ rs, (EmbeddingService.build_index c4Embed ⟨3, 7/10, none, []⟩
            [⟨1, "a", "b", [], true, some [(0 : ℚ), 0, 0]⟩]).svc.searchVec
              [(0 : ℚ), 0, 0] 5 = .ok rs →
          rs.length ≤ 5 ∧ ∀ r ∈ rs, r.1 ∈
            ([⟨1, "a", "b", [], true, some [(0 : ℚ), 0, 0]⟩] :
              List SlangTerm).map (fun e => e.id))
        ∧ (([⟨1, "a", "b", [], true, some [(0 : ℚ), 0, 0]⟩] :
              List SlangTerm).filter (fun e => e.is_verified) = [] →
            (EmbeddingService.build_index c4Embed ⟨3, 7/10, none, []⟩
              [⟨1, "a", "b", [], true, some [(0 : ℚ), 0, 0]⟩]).svc.searchVec
                [(0 : ℚ), 0, 0] 5 = .ok [])) := by
  refine ⟨by decide, ?_⟩
  exact C7_rebuild_query_sound c4Embed ⟨3, 7/10, none, []⟩
    [⟨1, "a", "b", [], true, some [(0 : ℚ), 0, 0]⟩] [(0 : ℚ), 0, 0] 5 (by decide)

/-! ## C3: hydration preserves semantic order -/

theorem lastIdxOf_get? (ids : List Nat) (i n : Nat)
    (h : lastIdxOf ids i = some n) : ids.get? n = some i := by
  induction ids generalizing n with
  | nil => simp [lastIdxOf] at h
  | cons a l ih =>
    simp only [lastIdxOf] at h
    rcases hl : lastIdxOf l i with _ | m
    · rw [hl] at h
      by_cases ha : a = i
      · rw [if_pos ha] at h
        have hn : n = 0 := (Option.some.inj h).symm
        subst hn
        simp [ha]
      · rw [if_neg ha] at h
        exact absurd h (by simp)
    · rw [hl] at h
      have hn : n = m + 1 := (Option.some.inj h).symm
      subst hn
      simpa using ih m hl

theorem lastIdxOf_isSome_of_mem (ids : List Nat) (i : Nat) (h : i ∈ ids) :
    (lastIdxOf ids i).isSome := by
  induction ids with
  | nil => simp at h
  | cons a l ih =>
    rcases List.mem_cons.mp h with h1 | h1
    · subst h1
      rcases hl : lastIdxOf l i with _ | m <;> simp [lastIdxOf, hl]
    · have hs := ih h1
      rcases hl : lastIdxOf l i with _ | m
      · rw [hl] at hs
        exact absurd hs (by simp)
      · simp [lastIdxOf, hl]

theorem posIn_inj (ids : List Nat) (i j : Nat) (hi : i ∈ ids) (hj : j ∈ ids)
    (h : posIn ids i = posIn ids j) : i = j := by
  obtain ⟨n, hn⟩ := Option.isSome_iff_exists.mp (lastIdxOf_isSome_of_mem ids i hi)
  obtain ⟨m, hm⟩ := Option.isSome_iff_exists.mp (lastIdxOf_isSome_of_mem ids j hj)
  unfold posIn at h
  rw [hn, hm] at h
  simp only [Option.getD_some] at h
  subst h
  have h1 := lastIdxOf_get? ids i n hn
  have h2 := lastIdxOf_get? ids j n hm
  rw [h1] at h2
  exact Option.some.inj h2

theorem pairwise_lt_of_le_nodup (key : α → Nat) (l : List α)
    (hle : l.Pairwise (fun a b => key a ≤ key b))
    (hnd : (l.map key).Nodup) :
    l.Pairwise (fun a b => key a < key b) := by
  induction l with
  | nil => simp
  | cons a l ih =>
    simp only [List.map_cons, List.nodup_cons] at hnd
    obtain ⟨hna, hnd2⟩ := hnd
    rcases List.pairwise_cons.mp hle with ⟨ha, hle2⟩
    refine List.pairwise_cons.mpr ⟨?_, ih hle2 hnd2⟩
    intro b hb
    have h1 := ha b hb
    have h2 : key a ≠ key b := fun he => hna (he ▸ List.mem_map_of_mem key hb)
    omega

/-- Claim C3: hydrating the semantic result ids through the store returns
the surviving verified entries exactly, ordered by their position in the
id list — the store's natural order never re-sorts them. -/
theorem C3_hydration_preserves_order (ids : List Nat) (terms : List SlangTerm)
    (hterms : (terms.map (fun e => e.id)).Nodup) :
    (∀ e, e ∈ hydrate ids terms ↔
        (e ∈ terms ∧ e.is_verified = true ∧ e.id ∈ ids))
    ∧ (hydrate ids terms).Pairwise
        (fun a b => posIn ids a.id < posIn ids b.id) := by
  constructor
  · intro e
    unfold hydrate
    rw [mem_sortRel, List.mem_filter]
    simp only [Bool.and_eq_true]
    constructor
    · rintro ⟨h1, h2, h3⟩
      exact ⟨h1, h3, by simpa using h2⟩
    · rintro ⟨h1, h2, h3⟩
      exact ⟨h1, by simpa using h3, h2⟩
  · have hle : (hydrate ids terms).Pairwise
        (fun a b => posIn ids a.id ≤ posIn ids b.id) := by
      have hp := pairwise_sortRel
        (fun a b => decide (posIn ids a.id ≤ posIn ids b.id))
        (fun a b => by
          rcases Nat.le_total (posIn ids a.id) (posIn ids b.id) with h | h
          · exact Or.inl (decide_eq_true h)
          · exact Or.inr (decide_eq_true h))
        (fun a b c hab hbc =>
          decide_eq_true (Nat.le_trans (of_decide_eq_true hab) (of_decide_eq_true hbc)))
        (terms.filter (fun e => ids.contains e.id && e.is_verified))
      exact hp.imp (fun h => of_decide_eq_true h)
    refine pairwise_lt_of_le_nodup (fun e : SlangTerm => posIn ids e.id) _ hle ?_
    have hperm : List.Perm
        ((hydrate ids terms).map (fun e => posIn ids e.id))
        ((terms.filter (fun e => ids.contains e.id && e.is_verified)).map
          (fun e => posIn ids e.id)) :=
      (sortRel_perm _ _).map _
    rw [List.Perm.nodup_iff hperm]
    have hnd1 : ((terms.filter (fun e => ids.contains e.id && e.is_verified)).map
        (fun e => e.id)).Nodup := by
      refine List.Nodup.sublist ?_ hterms
      exact List.Sublist.map _ (List.filter_sublist terms)
    have hmemids : ∀ x ∈ (terms.filter
        (fun e => ids.contains e.id && e.is_verified)).map (fun e => e.id),
        x ∈ ids := by
      intro x hx
      obtain ⟨e, he, heq⟩ := List.mem_map.mp hx
      have := (List.mem_filter.mp he).2
      simp only [Bool.and_eq_true] at this
      rw [← heq]
      simpa using this.1
    have : ((terms.filter (fun e => ids.contains e.id && e.is_verified)).map
        (fun e => posIn ids e.id))
        = (((terms.filter (fun e => ids.contains e.id && e.is_verified)).map
            (fun e => e.id)).map (posIn ids)) := by
      rw [List.map_map]
      rfl
    rw [this]
    exact List.Nodup.map_on
      (fun x hx y hy hxy => posIn_inj ids x y (hmemids x hx) (hmemids y hy) hxy)
      hnd1

/-- Witness for C3: hydrating ids [2, 1] through a two-entry store
returns the entries in the order 2, 1. -/
theorem C3_witness :
    ((([⟨1, "a", "b", [], true, none⟩, ⟨2, "c", "d", [], true, none⟩] :
        List SlangTerm).map (fun e => e.id)).Nodup)
      ∧ ((∀ e, e ∈ hydrate [2, 1]
            [⟨1, "a", "b", [], true, none⟩, ⟨2, "c", "d", [], true, none⟩] ↔
          (e ∈ ([⟨1, "a", "b", [], true, none⟩, ⟨2, "c", "d", [], true, none⟩] :
              List SlangTerm)
            ∧ e.is_verified = true ∧ e.id ∈ [2, 1]))
        ∧ (hydrate [2, 1]
            [⟨1, "a", "b", [], true, none⟩, ⟨2, "c", "d", [], true, none⟩]).Pairwise
            (fun a b => posIn [2, 1] a.id < posIn [2, 1] b.id)) := by
  refine ⟨by decide, ?_⟩
  exact C3_hydration_preserves_order [2, 1]
    [⟨1, "a", "b", [], true, none⟩, ⟨2, "c", "d", [], true, none⟩] (by decide)

/-! ## C9: state effects of the search endpoint -/

/-- Two entries agree on every field except possibly the cached-vector
column. -/
def sameExceptEmbedding (a b : SlangTerm) : Bool :=
  a.id == b.id && a.term == b.term && a.meaning == b.meaning &&
    a.examples == b.examples && a.is_verified == b.is_verified

/-- Pointwise sameExceptEmbedding over two stores of equal length. -/
def agreeExceptEmbedding : List SlangTerm → List SlangTerm → Bool
  | [], [] => true
  | a :: l, b :: m => sameExceptEmbedding a b && agreeExceptEmbedding l m
  | _, _ => false

theorem sameExceptEmbedding_refl (a : SlangTerm) :
    sameExceptEmbedding a a = true := by
  simp [sameExceptEmbedding]

theorem agreeExceptEmbedding_refl (l : List SlangTerm) :
    agreeExceptEmbedding l l = true := by
  induction l with
  | nil => rfl
  | cons a l ih => simp [agreeExceptEmbedding, sameExceptEmbedding_refl, ih]

theorem buildLoop_agree (embed : String → Except EmbErr (List ℚ))
    (entries : List SlangTerm) :
    agreeExceptEmbedding entries (buildLoop embed entries).entries = true := by
  induction entries with
  | nil => rfl
  | cons e rest ih =>
    by_cases ht : truthyEmb e = true
    · have heq : (buildLoop embed (e :: rest)).entries
          = e :: (buildLoop embed rest).entries := by
        simp [buildLoop, ht]
      rw [heq]
      simp [agreeExceptEmbedding, sameExceptEmbedding_refl, ih]
    · have htf : truthyEmb e = false := by simpa using ht
      rcases hok : embed (textToEmbed e) with er | v
      · have heq : (buildLoop embed (e :: rest)).entries = e :: rest := by
          simp [buildLoop, htf, hok]
        rw [heq]
        exact agreeExceptEmbedding_refl _
      · have heq : (buildLoop embed (e :: rest)).entries
            = { e with embedding := some v } :: (buildLoop embed rest).entries := by
          simp [buildLoop, htf, hok]
        rw [heq]
        simp [agreeExceptEmbedding, sameExceptEmbedding, ih]

theorem patchStore_agree (store repl : List SlangTerm)
    (h : agreeExceptEmbedding (store.filter (fun e => e.is_verified)) repl = true) :
    agreeExceptEmbedding store (patchStore store repl) = true := by
  induction store generalizing repl with
  | nil => rfl
  | cons e s ih =>
    by_cases hv : e.is_verified = true
    · rcases repl with _ | ⟨r, repl2⟩
      · rw [List.filter_cons_of_pos (by simpa using hv)] at h
        simp [agreeExceptEmbedding] at h
      · rw [List.filter_cons_of_pos (by simpa using hv)] at h
        simp only [agreeExceptEmbedding, Bool.and_eq_true] at h
        have heq : patchStore (e :: s) (r :: repl2) = r :: patchStore s repl2 := by
          simp [patchStore, hv]
        rw [heq]
        simp only [agreeExceptEmbedding, Bool.and_eq_true]
        exact ⟨h.1, ih repl2 h.2⟩
    · rw [List.filter_cons_of_neg (by simpa using hv)] at h
      have heq : patchStore (e :: s) repl = e :: patchStore s repl := by
        simp [patchStore, hv]
      rw [heq]
      simp only [agreeExceptEmbedding, Bool.and_eq_true]
      exact ⟨sameExceptEmbedding_refl e, ih repl h⟩

theorem build_index_store_agree (embed : String → Except EmbErr (List ℚ))
    (svc : EmbeddingService) (store : List SlangTerm) :
    agreeExceptEmbedding store (svc.build_index embed store).store = true := by
  by_cases hemp : (store.filter (fun e => e.is_verified)).isEmpty = true
  · rw [build_index_empty embed svc store hemp]
    exact agreeExceptEmbedding_refl store
  · rw [build_index_store_eq embed svc store (by simpa using hemp)]
    exact patchStore_agree store _ (buildLoop_agree embed _)

theorem init_store_agree (embed : String → Except EmbErr (List ℚ))
    (svc0 : EmbeddingService) (terms : List SlangTerm) :
    agreeExceptEmbedding terms (initialize_index embed svc0 terms).store = true := by
  unfold initialize_index
  rcases hix : svc0.index with _ | ix
  · exact build_index_store_agree embed svc0 terms
  · exact agreeExceptEmbedding_refl terms

/-- Counterexample to claim C9 as stated: a search by an authenticated
user creates a search-history row as a side effect. -/
theorem C9_counterexample :
    (search_slang_terms c4Embed 0 ⟨[], [], []⟩ (some "u1") "q" true 10
        ⟨3, 7/10, some ⟨3, []⟩, []⟩).2.1.search_history
      = [⟨"u1", "q", 0⟩] := by
  decide

/-- Claim C9, amended: a search call changes no vote rows, changes entry
rows at most in their cached-vector field (the index-initialization
write-through), and either leaves search_history unchanged or — exactly
when a user is authenticated and the query is accepted — appends that one
search to it. -/
theorem C9_state_effects (embed : String → Except EmbErr (List ℚ)) (now : Int)
    (db : Db) (user : Option String) (rawQ : String) (semantic : Bool)
    (lim : Nat) (svc0 : EmbeddingService) :
    (search_slang_terms embed now db user rawQ semantic lim svc0).2.1.votes
        = db.votes
    ∧ agreeExceptEmbedding db.terms
        (search_slang_terms embed now db user rawQ semantic lim svc0).2.1.terms
        = true
    ∧ ((search_slang_terms embed now db user rawQ semantic lim svc0).2.1.search_history
          = db.search_history
      ∨ ∃ u, user = some u ∧
          (search_slang_terms embed now db user rawQ semantic lim svc0).2.1.search_history
            = db.search_history ++ [⟨u, pyStrip rawQ, now⟩]) := by
  simp only [search_slang_terms]
  split
  · exact ⟨rfl, init_store_agree embed svc0 db.terms, Or.inl rfl⟩
  · split
    · exact ⟨rfl, init_store_agree embed svc0 db.terms, Or.inl rfl⟩
    · rcases user with _ | u
      · split
        · exact ⟨rfl, init_store_agree embed svc0 db.terms, Or.inl rfl⟩
        · exact ⟨rfl, init_store_agree embed svc0 db.terms, Or.inl rfl⟩
      · split
        · exact ⟨rfl, init_store_agree embed svc0 db.terms,
            Or.inr ⟨u, rfl, rfl⟩⟩
        · exact ⟨rfl, init_store_agree embed svc0 db.terms,
            Or.inr ⟨u, rfl, rfl⟩⟩

/-! ## C6: semantic/keyword fallback is all-or-nothing -/

/-- Claim C6: on a successful search, the returned list is exactly the
hydrated semantic results when those are non-empty, and exactly the
keyword substring results otherwise — the keyword query runs if and only
if the semantic path produced zero hydrated results, and the two result
kinds are never blended. -/
theorem C6_fallback_all_or_nothing (embed : String → Except EmbErr (List ℚ))
    (now : Int) (db : Db) (user : Option String) (rawQ : String)
    (semantic : Bool) (lim : Nat) (svc0 : EmbeddingService)
    (rs : List SlangTerm) (db' : Db) (svc' : EmbeddingService)
    (h : search_slang_terms embed now db user rawQ semantic lim svc0
        = (.ok rs, db', svc')) :
    ∃ srs, (if semantic then EmbeddingService.search embed svc' (pyStrip rawQ) lim
        else Except.ok []) = .ok srs
      ∧ rs = (if (hydrate (srs.map Prod.fst) db'.terms).isEmpty
          then keywordSearch db'.terms (pyStrip rawQ) lim
          else hydrate (srs.map Prod.fst) db'.terms) := by
  simp only [search_slang_terms] at h
  split at h
  · simp at h
  · split at h
    · simp at h
    · split at h
      · simp at h
      · rename_i srs0 heq
        simp only [Prod.mk.injEq] at h
        obtain ⟨h1, h2, h3⟩ := h
        have h4 := Except.ok.inj h1
        subst h2
        subst h3
        subst h4
        exact ⟨srs0, heq, rfl⟩

/-- Witness for C6: an accepted query on an empty store with an empty
index falls back to (empty) keyword results. -/
theorem C6_witness :
    (search_slang_terms c4Embed 0 ⟨[], [], []⟩ none "q" true 10
        ⟨3, 7/10, some ⟨3, []⟩, []⟩
      = (.ok [], ⟨[], [], []⟩, ⟨3, 7/10, some ⟨3, []⟩, []⟩))
    ∧ ∃ srs, (if true then EmbeddingService.search c4Embed
          ⟨3, 7/10, some ⟨3, []⟩, []⟩ (pyStrip "q") 10
        else Except.ok []) = .ok srs
      ∧ ([] : List SlangTerm) = (if (hydrate (srs.map Prod.fst)
            (⟨[], [], []⟩ : Db).terms).isEmpty
          then keywordSearch (⟨[], [], []⟩ : Db).terms (pyStrip "q") 10
          else hydrate (srs.map Prod.fst) (⟨[], [], []⟩ : Db).terms) := by
  refine ⟨rfl, ?_⟩
  exact C6_fallback_all_or_nothing c4Embed 0 ⟨[], [], []⟩ none "q" true 10
    ⟨3, 7/10, some ⟨3, []⟩, []⟩ [] ⟨[], [], []⟩ ⟨3, 7/10, some ⟨3, []⟩, []⟩ rfl

/-! ## C2 / C10: trending ranking -/

theorem foldl_preserves {δ : Type u1} {α : Type u2} (P : δ → Prop)
    (f : δ → α → δ) (l : List α) (d0 : δ) (h0 : P d0)
    (hf : ∀ d a, a ∈ l → P d → P (f d a)) : P (l.foldl f d0) := by
  induction l generalizing d0 with
  | nil => exact h0
  | cons a l ih =>
    exact ih (f d0 a) (hf d0 a (List.mem_cons_self _ _) h0)
      (fun d b hb hd => hf d b (List.mem_cons_of_mem _ hb) hd)

theorem foldl_dictAdd_keys_from [BEq κ] [LawfulBEq κ]
    (g : β → κ) (h : β → Nat) (l : List β) (d0 : List (κ × Nat)) (x : κ)
    (hx : x ∈ (l.foldl (fun d p => dictAdd (g p) (h p) d) d0).map Prod.fst) :
    x ∈ d0.map Prod.fst ∨ ∃ p ∈ l, g p = x := by
  induction l generalizing d0 with
  | nil => exact Or.inl hx
  | cons p rest ih =>
    rcases ih (dictAdd (g p) (h p) d0) hx with h1 | h1
    · rcases dictAdd_keys_subset (g p) (h p) d0 x h1 with h2 | h2
      · exact Or.inl h2
      · exact Or.inr ⟨p, List.mem_cons_self _ _, h2.symm⟩
    · obtain ⟨q, hq, hgq⟩ := h1
      exact Or.inr ⟨q, List.mem_cons_of_mem _ hq, hgq⟩

theorem sumKey_eq_zero [DecidableEq κ] (g : β → κ) (h : β → Nat) (x : κ)
    (l : List β) (hl : ∀ a ∈ l, g a ≠ x) : sumKey g h x l = 0 := by
  induction l with
  | nil => rfl
  | cons a l ih =>
    simp only [sumKey, List.map_cons, List.sum_cons]
    rw [if_neg (hl a (List.mem_cons_self _ _))]
    simpa [sumKey] using ih (fun b hb => hl b (List.mem_cons_of_mem _ hb))

theorem sumKey_eq_lookupD_of_nodup [BEq κ] [LawfulBEq κ] [DecidableEq κ]
    (d : List (κ × Nat)) (x : κ) (hnd : (d.map Prod.fst).Nodup) :
    sumKey Prod.fst Prod.snd x d = lookupD d x := by
  induction d with
  | nil => rfl
  | cons p d ih =>
    obtain ⟨k, v⟩ := p
    simp only [List.map_cons, List.nodup_cons] at hnd
    obtain ⟨hk, hnd2⟩ := hnd
    simp only [sumKey, List.map_cons, List.sum_cons, lookupD_cons]
    by_cases hkx : k = x
    · subst hkx
      rw [if_pos rfl, if_pos (beq_self_eq_true k)]
      have hz : sumKey Prod.fst Prod.snd k d = 0 := by
        refine sumKey_eq_zero _ _ _ _ ?_
        intro a ha hax
        exact hk (hax ▸ List.mem_map_of_mem Prod.fst ha)
      simpa [sumKey] using hz
    · rw [if_neg hkx, if_neg (by simpa using hkx)]
      simpa [sumKey] using ih hnd2

theorem lookupD_pos_of_mem_keys [BEq κ] [LawfulBEq κ] (d : List (κ × Nat))
    (x : κ) (hx : x ∈ d.map Prod.fst) (hpos : ∀ p ∈ d, 0 < p.2) :
    0 < lookupD d x := by
  induction d with
  | nil => simp at hx
  | cons p d ih =>
    obtain ⟨k, v⟩ := p
    rw [lookupD_cons]
    by_cases hkx : (k == x) = true
    · rw [if_pos hkx]
      exact hpos (k, v) (List.mem_cons_self _ _)
    · rw [if_neg hkx]
      have hx2 : x ∈ d.map Prod.fst := by
        simp only [List.map_cons, List.mem_cons] at hx
        rcases hx with h1 | h1
        · exact absurd (beq_iff_eq.mpr h1.symm) hkx
        · exact h1
      exact ih hx2 (fun q hq => hpos q (List.mem_cons_of_mem _ hq))

theorem sumKey_cons [DecidableEq κ] (g : β → κ) (h : β → Nat) (x : κ)
    (a : β) (l : List β) :
    sumKey g h x (a :: l) = (if g a = x then h a else 0) + sumKey g h x l := by
  simp [sumKey]

theorem sumKey_voteGroups_zero (ts : List SlangTerm) (c : Nat → Nat) (w x : Nat)
    (hx : x ∉ ts.map (fun t => t.id)) :
    sumKey Prod.fst (fun p => w * p.2) x
      (ts.filterMap (fun t => if c t.id = 0 then none else some (t.id, c t.id)))
      = 0 := by
  refine sumKey_eq_zero _ _ _ _ ?_
  intro p hp hpx
  obtain ⟨t, ht, hFt⟩ := List.mem_filterMap.mp hp
  by_cases hc : c t.id = 0
  · rw [if_pos hc] at hFt
    exact absurd hFt (by simp)
  · rw [if_neg hc] at hFt
    have hpt : p.1 = t.id := by
      rw [← Option.some.inj hFt]
    apply hx
    rw [← hpx, hpt]
    exact List.mem_map_of_mem (fun t => t.id) ht

theorem sumKey_voteGroups_aux (ts : List SlangTerm) (c : Nat → Nat) (w : Nat)
    (e : SlangTerm) (hnd : (ts.map (fun t => t.id)).Nodup) (he : e ∈ ts) :
    sumKey Prod.fst (fun p => w * p.2) e.id
      (ts.filterMap (fun t => if c t.id = 0 then none else some (t.id, c t.id)))
    = w * c e.id := by
  induction ts with
  | nil => simp at he
  | cons t ts ih =>
    simp only [List.map_cons, List.nodup_cons] at hnd
    obtain ⟨hti, hnd2⟩ := hnd
    rcases List.mem_cons.mp he with h1 | h1
    · subst h1
      rw [List.filterMap_cons]
      by_cases hc : c e.id = 0
      · rw [if_pos hc]
        rw [sumKey_voteGroups_zero ts c w e.id hti, hc]
        omega
      · rw [if_neg hc, sumKey_cons, sumKey_voteGroups_zero ts c w e.id hti]
        simp
    · have hne : t.id ≠ e.id := by
        intro hcon
        exact hti (hcon ▸ List.mem_map_of_mem (fun t => t.id) h1)
      rw [List.filterMap_cons]
      by_cases hc : c t.id = 0
      · rw [if_pos hc]
        exact ih hnd2 h1
      · rw [if_neg hc, sumKey_cons]
        simp only [hne, if_neg, ne_eq, not_false_iff]
        rw [ih hnd2 h1]
        omega

theorem sumKey_filter_terms_zero (ts : List SlangTerm) (p : SlangTerm → Bool)
    (cnt x : Nat) (hx : x ∉ ts.map (fun t => t.id)) :
    sumKey (fun t => t.id) (fun _ => cnt) x (ts.filter p) = 0 := by
  refine sumKey_eq_zero _ _ _ _ ?_
  intro t ht htx
  exact hx (htx ▸ List.mem_map_of_mem (fun t => t.id) (List.mem_of_mem_filter ht))

theorem sumKey_filter_terms (ts : List SlangTerm) (q : String) (cnt : Nat)
    (e : SlangTerm) (hnd : (ts.map (fun t => t.id)).Nodup) (he : e ∈ ts)
    (hv : e.is_verified = true) :
    sumKey (fun t => t.id) (fun _ => cnt) e.id
      (ts.filter (fun t => t.is_verified && termMatches t q))
    = if termMatches e q then cnt else 0 := by
  induction ts with
  | nil => simp at he
  | cons t ts ih =>
    simp only [List.map_cons, List.nodup_cons] at hnd
    obtain ⟨hti, hnd2⟩ := hnd
    rcases List.mem_cons.mp he with h1 | h1
    · subst h1
      by_cases hm : termMatches e q = true
      · rw [List.filter_cons_of_pos (by simp [hv, hm]), sumKey_cons,
          sumKey_filter_terms_zero ts _ cnt e.id hti]
        simp [hm]
      · have hmf : termMatches e q = false := by simpa using hm
        rw [List.filter_cons_of_neg (by simp [hv, hmf]), hmf]
        simp only [Bool.false_eq_true, if_neg, not_false_iff]
        exact sumKey_filter_terms_zero ts _ cnt e.id hti
    · have hne : t.id ≠ e.id := by
        intro hcon
        exact hti (hcon ▸ List.mem_map_of_mem (fun t => t.id) h1)
      by_cases hk : (t.is_verified && termMatches t q) = true
      · have heq : (t :: ts).filter (fun t2 => t2.is_verified && termMatches t2 q)
            = t :: ts.filter (fun t2 => t2.is_verified && termMatches t2 q) := by
          simp [List.filter_cons, hk]
        rw [heq, sumKey_cons]
        simp only [hne, if_neg, ne_eq, not_false_iff]
        rw [ih hnd2 h1]
        omega
      · have heq : (t :: ts).filter (fun t2 => t2.is_verified && termMatches t2 q)
            = ts.filter (fun t2 => t2.is_verified && termMatches t2 q) := by
          simp only [List.filter_cons, hk]
          simp
        rw [heq]
        exact ih hnd2 h1

theorem lookupD_foldl_dictAdd_id (x : Nat) (l : List (Nat × Nat))
    (d0 : List (Nat × Nat)) :
    lookupD (l.foldl (fun d p => dictAdd p.1 p.2 d) d0) x
      = lookupD d0 x + sumKey Prod.fst Prod.snd x l :=
  lookupD_foldl_dictAdd Prod.fst Prod.snd x l d0

theorem lookupD_foldl_dictAdd_w (w x : Nat) (l : List (Nat × Nat))
    (d0 : List (Nat × Nat)) :
    lookupD (l.foldl (fun d p => dictAdd p.1 (w * p.2) d) d0) x
      = lookupD d0 x + sumKey Prod.fst (fun p => w * p.2) x l :=
  lookupD_foldl_dictAdd Prod.fst (fun p => w * p.2) x l d0

theorem lookupD_foldl_dictAdd_terms (cnt x : Nat) (ts : List SlangTerm)
    (d0 : List (Nat × Nat)) :
    lookupD (ts.foldl (fun d2 e => dictAdd e.id cnt d2) d0) x
      = lookupD d0 x + sumKey (fun t => t.id) (fun _ => cnt) x ts :=
  lookupD_foldl_dictAdd (fun t => t.id) (fun _ => cnt) x ts d0

theorem lookupD_nested_fold (qs : List (String × Nat)) (d0 : List (Nat × Nat))
    (x : Nat) (M : String → List SlangTerm) :
    lookupD (qs.foldl (fun d p => (M p.1).foldl
        (fun d2 e => dictAdd e.id p.2 d2) d) d0) x
      = lookupD d0 x
        + (qs.map (fun p => sumKey (fun t => t.id) (fun _ => p.2) x (M p.1))).sum := by
  induction qs generalizing d0 with
  | nil => simp
  | cons p rest ih =>
    simp only [List.foldl_cons, List.map_cons, List.sum_cons]
    rw [ih, lookupD_foldl_dictAdd_terms]
    omega

theorem lookupD_searchCounts (db : Db) (recentDate : Int) (x : Nat) :
    lookupD (searchCounts db recentDate) x
      = ((topQueries db recentDate).map (fun p =>
          sumKey (fun t => t.id) (fun _ => p.2) x
            (db.terms.filter (fun t => t.is_verified && termMatches t p.1)))).sum := by
  have h := lookupD_nested_fold (topQueries db recentDate) [] x
    (fun q => db.terms.filter (fun t => t.is_verified && termMatches t q))
  simpa [lookupD] using h

theorem searchCounts_keys_nodup (db : Db) (recentDate : Int) :
    ((searchCounts db recentDate).map Prod.fst).Nodup := by
  unfold searchCounts
  refine foldl_preserves (fun d : List (Nat × Nat) => (d.map Prod.fst).Nodup) _ _ _ ?_ ?_
  · simp
  · intro d p _ hd
    refine foldl_preserves (fun d2 : List (Nat × Nat) => (d2.map Prod.fst).Nodup) _ _ _ hd ?_
    intro d2 e _ hd2
    exact dictAdd_keys_nodup _ _ _ hd2

theorem searchCounts_keys_verified (db : Db) (recentDate : Int) :
    ∀ x ∈ (searchCounts db recentDate).map Prod.fst,
      ∃ t, t ∈ db.terms ∧ t.id = x ∧ t.is_verified = true := by
  unfold searchCounts
  refine foldl_preserves
    (fun d : List (Nat × Nat) => ∀ x ∈ d.map Prod.fst,
      ∃ t, t ∈ db.terms ∧ t.id = x ∧ t.is_verified = true) _ _ _ ?_ ?_
  · simp
  intro d p _ hd x hx
  rcases foldl_dictAdd_keys_from (fun e : SlangTerm => e.id) (fun _ => p.2)
      _ d x hx with h1 | h1
  · exact hd x h1
  · obtain ⟨t, ht, hgt⟩ := h1
    have hf := List.mem_filter.mp ht
    have hver : t.is_verified = true := by
      have := hf.2
      simp only [Bool.and_eq_true] at this
      exact this.1
    exact ⟨t, hf.1, hgt, hver⟩

theorem voteGroups_mem (db : Db) (recentDate : Int) (p : Nat × Nat)
    (hp : p ∈ voteGroups db recentDate) :
    ∃ t, t ∈ db.terms ∧ t.id = p.1 ∧ t.is_verified = true ∧ 0 < p.2 := by
  obtain ⟨t, ht, hFt⟩ := List.mem_filterMap.mp hp
  have hf := List.mem_filter.mp ht
  by_cases hc : voteCountIn db recentDate t.id = 0
  · rw [if_pos hc] at hFt
    exact absurd hFt (by simp)
  · rw [if_neg hc] at hFt
    have hpt := Option.some.inj hFt
    refine ⟨t, hf.1, ?_, by simpa using hf.2, ?_⟩
    · rw [← hpt]
    · rw [← hpt]
      omega

theorem trendingScores_keys_verified (db : Db) (recentDate : Int) (x : Nat)
    (hx : x ∈ (trendingScores db recentDate).map Prod.fst) :
    ∃ t, t ∈ db.terms ∧ t.id = x ∧ t.is_verified = true := by
  unfold trendingScores at hx
  rcases foldl_dictAdd_keys_from Prod.fst Prod.snd _ _ x hx with h1 | h1
  · rcases foldl_dictAdd_keys_from Prod.fst (fun p => 2 * p.2) _ [] x h1 with h2 | h2
    · simp at h2
    · obtain ⟨p, hp, hpx⟩ := h2
      obtain ⟨t, ht, hid, hver, _⟩ := voteGroups_mem db recentDate p hp
      exact ⟨t, ht, by rw [hid, hpx], hver⟩
  · obtain ⟨p, hp, hpx⟩ := h1
    obtain ⟨t, ht, hid, hver⟩ := searchCounts_keys_verified db recentDate p.1
      (List.mem_map_of_mem Prod.fst hp)
    exact ⟨t, ht, by rw [hid, hpx], hver⟩

theorem groupCounts_values_pos (db : Db) (recentDate : Int) :
    ∀ p ∈ groupCounts db recentDate, 0 < p.2 := by
  unfold groupCounts
  refine foldl_preserves (fun d : List (String × Nat) => ∀ p ∈ d, 0 < p.2) _ _ _ ?_ ?_
  · simp
  · intro d q _ hd
    exact dictAdd_values_pos q 1 d hd (by omega)

theorem topQueries_values_pos (db : Db) (recentDate : Int) :
    ∀ p ∈ topQueries db recentDate, 0 < p.2 := by
  intro p hp
  exact groupCounts_values_pos db recentDate p
    ((mem_sortRel _ _ p).mp (List.mem_of_mem_take hp))

theorem searchCounts_values_pos (db : Db) (recentDate : Int) :
    ∀ p ∈ searchCounts db recentDate, 0 < p.2 := by
  unfold searchCounts
  refine foldl_preserves (fun d : List (Nat × Nat) => ∀ p ∈ d, 0 < p.2) _ _ _ ?_ ?_
  · simp
  · intro d p hp hd
    refine foldl_preserves (fun d2 : List (Nat × Nat) => ∀ r ∈ d2, 0 < r.2) _ _ _ hd ?_
    intro d2 e _ hd2
    exact dictAdd_values_pos e.id p.2 d2 hd2 (topQueries_values_pos db recentDate p hp)

theorem trendingScores_values_pos (db : Db) (recentDate : Int) :
    ∀ p ∈ trendingScores db recentDate, 0 < p.2 := by
  unfold trendingScores
  refine foldl_preserves (fun d : List (Nat × Nat) => ∀ p ∈ d, 0 < p.2) _ _ _ ?_ ?_
  · refine foldl_preserves (fun d : List (Nat × Nat) => ∀ p ∈ d, 0 < p.2) _ _ _ ?_ ?_
    · simp
    · intro d p hp hd
      obtain ⟨_, _, _, _, hpos⟩ := voteGroups_mem db recentDate p hp
      exact dictAdd_values_pos p.1 (2 * p.2) d hd (by omega)
  · intro d p hp hd
    exact dictAdd_values_pos p.1 p.2 d hd
      (searchCounts_values_pos db recentDate p hp)

theorem trendingScore_formula (db : Db) (recentDate : Int) (e : SlangTerm)
    (hnd : (db.terms.map (fun t => t.id)).Nodup)
    (he : e ∈ db.terms) (hv : e.is_verified = true) :
    lookupD (trendingScores db recentDate) e.id
      = 2 * voteCountIn db recentDate e.id + searchScore db recentDate e := by
  unfold trendingScores
  rw [lookupD_foldl_dictAdd_id, lookupD_foldl_dictAdd_w]
  have hnd2 : ((db.terms.filter (fun t => t.is_verified)).map
      (fun t => t.id)).Nodup :=
    List.Nodup.sublist (List.Sublist.map _ (List.filter_sublist db.terms)) hnd
  have he2 : e ∈ db.terms.filter (fun t => t.is_verified) :=
    List.mem_filter.mpr ⟨he, hv⟩
  have hvote := sumKey_voteGroups_aux (db.terms.filter (fun t => t.is_verified))
    (voteCountIn db recentDate) 2 e hnd2 he2
  have hsearch : sumKey Prod.fst Prod.snd e.id (searchCounts db recentDate)
      = searchScore db recentDate e := by
    rw [sumKey_eq_lookupD_of_nodup _ _ (searchCounts_keys_nodup db recentDate),
      lookupD_searchCounts]
    unfold searchScore
    congr 1
    refine List.map_congr_left ?_
    intro p hp
    exact sumKey_filter_terms db.terms p.1 p.2 e hnd he hv
  rw [hsearch]
  have hvg : voteGroups db recentDate
      = (db.terms.filter (fun t => t.is_verified)).filterMap
          (fun t => if voteCountIn db recentDate t.id = 0 then none
            else some (t.id, voteCountIn db recentDate t.id)) := rfl
  rw [hvg, hvote]
  simp [lookupD]

theorem nat_contains_iff (l : List Nat) (a : Nat) : l.contains a = true ↔ a ∈ l := by
  simp

theorem lastIdxOf_none_of_not_mem (l : List Nat) (x : Nat) (h : x ∉ l) :
    lastIdxOf l x = none := by
  induction l with
  | nil => rfl
  | cons a l ih =>
    have hx : x ∉ l := fun hc => h (List.mem_cons_of_mem _ hc)
    have ha : a ≠ x := fun hc => h (by simp [hc])
    simp [lastIdxOf, ih hx, ha]

theorem posIn_cons_of_mem (a x : Nat) (l : List Nat) (h : x ∈ l) :
    posIn (a :: l) x = posIn l x + 1 := by
  obtain ⟨n, hn⟩ := Option.isSome_iff_exists.mp (lastIdxOf_isSome_of_mem l x h)
  simp [posIn, lastIdxOf, hn]

theorem posIn_cons_self_of_not_mem (a : Nat) (l : List Nat) (h : a ∉ l) :
    posIn (a :: l) a = 0 := by
  simp [posIn, lastIdxOf, lastIdxOf_none_of_not_mem l a h]

/-- A store with unique ids is strictly ordered by the position of each
entry's id in the store's id list. -/
theorem pairwise_posIn_store (terms : List SlangTerm)
    (hnd : (terms.map (fun e => e.id)).Nodup) :
    terms.Pairwise (fun a b => posIn (terms.map (fun e => e.id)) a.id
      < posIn (terms.map (fun e => e.id)) b.id) := by
  induction terms with
  | nil => simp
  | cons e rest ih =>
    simp only [List.map_cons, List.nodup_cons] at hnd
    obtain ⟨hni, hnd2⟩ := hnd
    simp only [List.map_cons]
    refine List.pairwise_cons.mpr ⟨?_, ?_⟩
    · intro b hb
      have hbid : b.id ∈ rest.map (fun e => e.id) := List.mem_map_of_mem _ hb
      rw [posIn_cons_self_of_not_mem e.id _ hni,
        posIn_cons_of_mem e.id b.id _ hbid]
      omega
    · refine List.Pairwise.imp_of_mem ?_ (ih hnd2)
      intro a b ha hb hab
      rw [posIn_cons_of_mem e.id a.id _
          (List.mem_map_of_mem (fun e : SlangTerm => e.id) ha),
        posIn_cons_of_mem e.id b.id _
          (List.mem_map_of_mem (fun e : SlangTerm => e.id) hb)]
      omega

/-- Stability of the descending insertion step: inserting the element
with the smallest input position into a list that is pairwise sorted by
(key descending, input position ascending on ties) keeps that order. -/
theorem insRel_lex (key pos : α → Nat) (a : α) (l : List α)
    (hpa : ∀ b ∈ l, pos a < pos b)
    (hl : l.Pairwise (fun x y => key y < key x ∨ (key x = key y ∧ pos x < pos y))) :
    (insRel (fun x y => decide (key y ≤ key x)) a l).Pairwise
      (fun x y => key y < key x ∨ (key x = key y ∧ pos x < pos y)) := by
  induction l with
  | nil => simp [insRel]
  | cons b l ih =>
    rcases List.pairwise_cons.mp hl with ⟨hb, hl2⟩
    by_cases hab : key b ≤ key a
    · have heq : insRel (fun x y => decide (key y ≤ key x)) a (b :: l)
          = a :: b :: l := by
        simp [insRel, hab]
      rw [heq]
      refine List.pairwise_cons.mpr ⟨?_, hl⟩
      intro y hy
      rcases List.mem_cons.mp hy with h1 | h1
      · subst h1
        by_cases hlt : key y < key a
        · exact Or.inl hlt
        · have heqk : key a = key y := Nat.le_antisymm (Nat.le_of_not_lt hlt) hab
          exact Or.inr ⟨heqk, hpa y (List.mem_cons_self _ _)⟩
      · rcases hb y h1 with h2 | h2
        · exact Or.inl (Nat.lt_of_lt_of_le h2 hab)
        · by_cases hlt : key y < key a
          · exact Or.inl hlt
          · have h3 : key y ≤ key a := h2.1 ▸ hab
            have heqk : key a = key y := Nat.le_antisymm (Nat.le_of_not_lt hlt) h3
            exact Or.inr ⟨heqk, hpa y (List.mem_cons_of_mem _ h1)⟩
    · have heq : insRel (fun x y => decide (key y ≤ key x)) a (b :: l)
          = b :: insRel (fun x y => decide (key y ≤ key x)) a l := by
        simp [insRel, hab]
      rw [heq]
      refine List.pairwise_cons.mpr
        ⟨?_, ih (fun c hc => hpa c (List.mem_cons_of_mem _ hc)) hl2⟩
      intro y hy
      have hy2 : y ∈ a :: l := (insRel_perm _ a l).mem_iff.mp hy
      rcases List.mem_cons.mp hy2 with h1 | h1
      · subst h1
        exact Or.inl (Nat.lt_of_not_le hab)
      · exact hb y h1

/-- Stability of the stable descending sort: starting from a list that is
strictly ordered by input position, the sorted output is pairwise ordered
by strictly descending key, with key ties in strictly ascending input
position. -/
theorem sortRel_lex (key pos : α → Nat) (l : List α)
    (hpos : l.Pairwise (fun x y => pos x < pos y)) :
    (sortRel (fun x y => decide (key y ≤ key x)) l).Pairwise
      (fun x y => key y < key x ∨ (key x = key y ∧ pos x < pos y)) := by
  induction l with
  | nil => simp [sortRel]
  | cons a l ih =>
    rcases List.pairwise_cons.mp hpos with ⟨ha, hl⟩
    refine insRel_lex key pos a (sortRel _ l) ?_ (ih hl)
    intro b hb
    exact ha b ((mem_sortRel _ l b).mp hb)

theorem trendingScores_keys_nodup (db : Db) (recentDate : Int) :
    ((trendingScores db recentDate).map Prod.fst).Nodup := by
  unfold trendingScores
  refine foldl_preserves (fun d : List (Nat × Nat) => (d.map Prod.fst).Nodup)
    _ _ _ ?_ ?_
  · refine foldl_preserves (fun d : List (Nat × Nat) => (d.map Prod.fst).Nodup)
      _ _ _ ?_ ?_
    · simp
    · intro d p _ hd
      exact dictAdd_keys_nodup _ _ _ hd
  · intro d p _ hd
    exact dictAdd_keys_nodup _ _ _ hd

/-- With unique store ids, fetching the entries whose id lies in a
duplicate-free id list all of whose members are ids of store entries
returns exactly one row per id. -/
theorem filter_contains_length (db : Db)
    (hnd : (db.terms.map (fun e => e.id)).Nodup)
    (tIds : List Nat) (hndT : tIds.Nodup)
    (hall : ∀ x ∈ tIds, ∃ t, t ∈ db.terms ∧ t.id = x) :
    (db.terms.filter (fun e => tIds.contains e.id)).length = tIds.length := by
  have hndA : ((db.terms.filter (fun e => tIds.contains e.id)).map
      (fun e => e.id)).Nodup :=
    List.Nodup.sublist (List.Sublist.map _ (List.filter_sublist db.terms)) hnd
  have hAB : ((db.terms.filter (fun e => tIds.contains e.id)).map
      (fun e => e.id)) ⊆ tIds := by
    intro x hx
    obtain ⟨e, he, heq⟩ := List.mem_map.mp hx
    have hc := (List.mem_filter.mp he).2
    rw [← heq]
    exact (nat_contains_iff _ _).mp hc
  have hBA : tIds ⊆ ((db.terms.filter (fun e => tIds.contains e.id)).map
      (fun e => e.id)) := by
    intro x hx
    obtain ⟨t, ht, htid⟩ := hall x hx
    refine List.mem_map.mpr ⟨t, ?_, htid⟩
    refine List.mem_filter.mpr ⟨ht, ?_⟩
    rw [htid]
    exact (nat_contains_iff _ _).mpr hx
  have h1 := (List.subperm_of_subset hndA hAB).length_le
  have h2 := (List.subperm_of_subset hndT hBA).length_le
  rw [List.length_map] at h1 h2
  omega

/-- Claim C2, amended: with a store whose ids are unique, the trending
endpoint scores each verified entry 2 x (votes in the window) plus the
summed counts of those of the 100 most frequent distinct window search
texts that the entry's lower-cased term contains; only entries with a
non-zero score are candidates; exactly min(limit, number of candidates)
entries are returned, ordered by strictly descending score with
equal-score entries in the store's natural (fetch) order — the stable
final re-sort preserves the store order among ties, there being no
explicit identifier tie-break in the code. -/
theorem C2_trending_ranking (db : Db) (lim : Nat) (recentDate : Int)
    (hnd : (db.terms.map (fun e => e.id)).Nodup) :
    (get_trending_terms db lim recentDate).length
        = min lim (trendingScores db recentDate).length
    ∧ (get_trending_terms db lim recentDate).Pairwise
        (fun a b => lookupD (trendingScores db recentDate) b.id
            < lookupD (trendingScores db recentDate) a.id
          ∨ (lookupD (trendingScores db recentDate) a.id
              = lookupD (trendingScores db recentDate) b.id
            ∧ posIn (db.terms.map (fun e => e.id)) a.id
              < posIn (db.terms.map (fun e => e.id)) b.id))
    ∧ ∀ e ∈ get_trending_terms db lim recentDate,
        e.is_verified = true
        ∧ 0 < lookupD (trendingScores db recentDate) e.id
        ∧ lookupD (trendingScores db recentDate) e.id
            = 2 * voteCountIn db recentDate e.id + searchScore db recentDate e := by
  refine ⟨?_, ?_, ?_⟩
  · simp only [get_trending_terms]
    rw [length_sortRel]
    have hndT : ((sortRel (fun i j =>
        decide (lookupD (trendingScores db recentDate) j
          ≤ lookupD (trendingScores db recentDate) i))
        ((trendingScores db recentDate).map Prod.fst)).take lim).Nodup := by
      refine List.Nodup.sublist (List.take_sublist _ _) ?_
      exact ((sortRel_perm _ _).nodup_iff).mpr (trendingScores_keys_nodup db recentDate)
    have hall : ∀ x ∈ ((sortRel (fun i j =>
        decide (lookupD (trendingScores db recentDate) j
          ≤ lookupD (trendingScores db recentDate) i))
        ((trendingScores db recentDate).map Prod.fst)).take lim),
        ∃ t, t ∈ db.terms ∧ t.id = x := by
      intro x hx
      have hk : x ∈ (trendingScores db recentDate).map Prod.fst :=
        (mem_sortRel _ _ x).mp (List.mem_of_mem_take hx)
      obtain ⟨t, ht, htid, _⟩ := trendingScores_keys_verified db recentDate x hk
      exact ⟨t, ht, htid⟩
    rw [filter_contains_length db hnd _ hndT hall]
    rw [List.length_take, length_sortRel, List.length_map]
  · simp only [get_trending_terms]
    have hposf : (db.terms.filter (fun e =>
        ((sortRel (fun i j => decide (lookupD (trendingScores db recentDate) j
            ≤ lookupD (trendingScores db recentDate) i))
          ((trendingScores db recentDate).map Prod.fst)).take lim).contains e.id)).Pairwise
        (fun a b => posIn (db.terms.map (fun e => e.id)) a.id
          < posIn (db.terms.map (fun e => e.id)) b.id) :=
      List.Pairwise.sublist (List.filter_sublist db.terms)
        (pairwise_posIn_store db.terms hnd)
    exact sortRel_lex
      (fun e : SlangTerm => lookupD (trendingScores db recentDate) e.id)
      (fun e : SlangTerm => posIn (db.terms.map (fun e2 => e2.id)) e.id)
      _ hposf
  · intro e he
    simp only [get_trending_terms] at he
    have he2 := (mem_sortRel _ _ e).mp he
    obtain ⟨heterms, hecont⟩ := List.mem_filter.mp he2
    have heid : e.id ∈ (trendingScores db recentDate).map Prod.fst := by
      have hin := (nat_contains_iff _ _).mp hecont
      exact (mem_sortRel _ _ e.id).mp (List.mem_of_mem_take hin)
    obtain ⟨t, ht, htid, htver⟩ :=
      trendingScores_keys_verified db recentDate e.id heid
    have het : e = t := by
      refine List.inj_on_of_nodup_map hnd ?_ ?_ ?_
      · exact heterms
      · exact ht
      · exact htid.symm
    have hever : e.is_verified = true := by
      rw [het]
      exact htver
    refine ⟨hever, ?_, ?_⟩
    · exact lookupD_pos_of_mem_keys _ e.id heid
        (trendingScores_values_pos db recentDate)
    · exact trendingScore_formula db recentDate e hnd heterms hever

/-- The trending score exactly as claim C2 states it, for comparison with
the code's ranking: twice the window vote count plus the number of window
search queries whose text is a substring of, or contains, the entry's
term. -/
def specScoreC2 (db : Db) (recentDate : Int) (e : SlangTerm) : Nat :=
  2 * voteCountIn db recentDate e.id +
    ((db.search_history.filter (fun s => recentDate ≤ s.created_at)).filter
      (fun s => strContains e.term s.query || strContains s.query e.term)).length

/-- One verified entry "lit" and one window search "lit is cool". -/
def c2Db : Db :=
  ⟨[⟨1, "lit", "amazing", [], true, none⟩], [], [⟨"u", "lit is cool", 5⟩]⟩

/-- Counterexample to claim C2 as stated: the search "lit is cool"
contains the term "lit", so the claim's score for entry 1 is 1 and the
entry must be ranked; the code only counts queries the term contains, so
it returns an empty trending list. -/
theorem C2_counterexample :
    specScoreC2 c2Db 0 ⟨1, "lit", "amazing", [], true, none⟩ = 1
      ∧ get_trending_terms c2Db 10 0 = [] := by
  exact ⟨by decide, by decide⟩

/-- The C2 witness store: entry 2 earns score 2 from a window vote and
entry 1 earns score 2 from two window searches "li" — a genuine tie, so
the lexicographic conclusion is exercised: the returned order is the
store order, although the score dictionary accumulated entry 2 first. -/
def c2WitDb : Db :=
  ⟨[⟨1, "lit", "amazing", [], true, none⟩, ⟨2, "cap", "a lie", [], true, none⟩],
   [⟨2, 1, 5⟩], [⟨"u", "li", 5⟩, ⟨"u2", "li", 6⟩]⟩

/-- Witness for C2 at a concrete store with tied scores. -/
theorem C2_witness :
    ((c2WitDb.terms.map (fun e => e.id)).Nodup)
      ∧ ((get_trending_terms c2WitDb 10 0).length
            = min 10 (trendingScores c2WitDb 0).length
        ∧ (get_trending_terms c2WitDb 10 0).Pairwise
            (fun a b => lookupD (trendingScores c2WitDb 0) b.id
                < lookupD (trendingScores c2WitDb 0) a.id
              ∨ (lookupD (trendingScores c2WitDb 0) a.id
                  = lookupD (trendingScores c2WitDb 0) b.id
                ∧ posIn (c2WitDb.terms.map (fun e => e.id)) a.id
                  < posIn (c2WitDb.terms.map (fun e => e.id)) b.id))
        ∧ ∀ e ∈ get_trending_terms c2WitDb 10 0,
            e.is_verified = true
            ∧ 0 < lookupD (trendingScores c2WitDb 0) e.id
            ∧ lookupD (trendingScores c2WitDb 0) e.id
              = 2 * voteCountIn c2WitDb 0 e.id + searchScore c2WitDb 0 e) := by
  refine ⟨by decide, ?_⟩
  exact C2_trending_ranking c2WitDb 10 0 (by decide)


theorem take_eraseP (p : α → Bool) (l : List α) (n : Nat)
    (h : ∀ x ∈ l.take n, p x = false) :
    (l.eraseP p).take n = l.take n := by
  induction l generalizing n with
  | nil => simp
  | cons a l ih =>
    cases n with
    | zero => simp
    | succ m =>
      have ha : p a = false := h a (by simp)
      have heq : (a :: l).eraseP p = a :: l.eraseP p := by
        simp [List.eraseP_cons, ha]
      rw [heq]
      simp only [List.take_succ_cons]
      rw [ih m (fun x hx => h x (by simp [hx]))]

/-- Claim C10: only the 100 most frequent distinct window search texts
feed the search side of trending scores: striking from the grouped,
frequency-sorted window queries any text that did not make the top-100
prefix leaves every entry's search score unchanged — it contributes
zero despite being in the window. -/
theorem C10_top100_cutoff (db : Db) (recentDate : Int) (e : SlangTerm)
    (q : String) (hq : q ∉ (topQueries db recentDate).map Prod.fst) :
    ((((sortedGroups db recentDate).eraseP (fun p => p.1 == q)).take 100).map
        (fun p => if termMatches e p.1 then p.2 else 0)).sum
      = searchScore db recentDate e := by
  have h : ∀ x ∈ (sortedGroups db recentDate).take 100, (x.1 == q) = false := by
    intro x hx
    by_cases hxq : x.1 = q
    · exact absurd (List.mem_map.mpr ⟨x, hx, hxq⟩) hq
    · exact beq_eq_false_iff_ne.mpr hxq
  rw [take_eraseP _ _ _ h]
  rfl

/-- A window of 101 distinct search texts w0..w100; with equal counts the
stable ordering keeps first-occurrence order, so w100 misses the cutoff. -/
def c10Db : Db :=
  ⟨[], [], (List.range 101).map (fun i => ⟨"u", "w" ++ toString i, 5⟩)⟩

/-- Witness for C10: the in-window query "w100" is outside the top-100
prefix, and erasing its group changes no search score. -/
theorem C10_witness :
    ("w100" ∉ (topQueries c10Db 0).map Prod.fst)
      ∧ ((((sortedGroups c10Db 0).eraseP (fun p => p.1 == "w100")).take 100).map
          (fun p => if termMatches ⟨1, "lit", "m", [], true, none⟩ p.1
            then p.2 else 0)).sum
        = searchScore c10Db 0 ⟨1, "lit", "m", [], true, none⟩ := by
  refine ⟨by decide, ?_⟩
  exact C10_top100_cutoff c10Db 0 ⟨1, "lit", "m", [], true, none⟩ "w100" (by decide)
